import Mathlib

/-
Verification of the duck_talks conversation-log core: a shallow embedding in
Lean 4 of the record schema, log reader, tree index, navigator, log writer and
incremental watcher (src/models.py and src/watcher.py), with theorems settling
the spec's claims about them.

Modelling conventions:
- ISO-8601 millisecond timestamps are modelled as natural numbers (milliseconds
  since an epoch); the fixed-width UTC rendering used by the code is order
  isomorphic to that number.
- Raw JSON dict payloads (the JsonDict fields the code never interprets beyond
  a "type"/"text"/"thinking" probe) are modelled by the RawBlock inductive.
- A JSONL file is modelled as the list of its lines, each line classified the
  way the readers classify it: blank, not valid JSON (json.loads raises), valid
  JSON failing schema validation (validate_python raises), or a decoded record.
- Python truthiness on optional strings (None and "" both falsy) is made
  explicit via pyParent and the empty-string guards in walkLoop.
- Fields that no claim touches (usage stats, version strings, request ids,
  extra passthrough fields) are omitted from the record structures.
-/

namespace DuckTalks

/-- Content blocks of an assistant message (models.py ContentBlock union). -/
inductive ContentBlock where
  | text (text : String)
  | thinking (thinking : String) (signature : Option String)
  | toolUse (id : String) (name : String)
  | toolResult (toolUseId : String)
  | image (mediaType : String) (data : String)
deriving DecidableEq

/-- Raw JSON dict as probed by Session.from_messages: the code looks at the
"type" key and, for text and thinking blocks, at whether the corresponding
payload field is a string (`none` models a missing or non-string field). -/
inductive RawBlock where
  | text (val : Option String)
  | thinking (val : Option String)
  | other
deriving DecidableEq

/-- A str-or-list-of-dicts content field (models.py: str | list[JsonDict]). -/
inductive RawContent where
  | str (s : String)
  | blocks (bs : List RawBlock)
deriving DecidableEq

/-- UserMessagePayload (models.py). -/
structure UserMessagePayload where
  content : RawContent
deriving DecidableEq

/-- AssistantMessagePayload (models.py); id, model, stop_reason and usage are
omitted (no claim touches them). -/
structure AssistantMessagePayload where
  content : List ContentBlock
deriving DecidableEq

/-- QueueOperation entry (models.py). -/
structure QueueOperation where
  operation : String := "dequeue"
  sessionId : String
  content : Option String := none
  timestamp : Nat := 0
deriving DecidableEq

/-- UserEntry (models.py): parentUuid is nullable, None for the first message. -/
structure UserEntry where
  uuid : String
  parentUuid : Option String := none
  sessionId : String
  message : UserMessagePayload
  cwd : String := "."
  gitBranch : Option String := some "main"
  timestamp : Nat := 0
deriving DecidableEq

/-- AssistantEntry (models.py): parentUuid is a required string. -/
structure AssistantEntry where
  uuid : String
  parentUuid : String
  sessionId : String
  message : AssistantMessagePayload
  cwd : String := "."
  gitBranch : Option String := some "main"
  timestamp : Nat := 0
deriving DecidableEq

/-- ProgressEntry (models.py). -/
structure ProgressEntry where
  uuid : String
  parentUuid : Option String := none
  sessionId : String
  timestamp : Nat := 0
deriving DecidableEq

/-- SystemEntry (models.py). -/
structure SystemEntry where
  uuid : String
  parentUuid : Option String := none
  sessionId : Option String := none
  subtype : Option String := none
  timestamp : Nat := 0
deriving DecidableEq

/-- SummaryEntry (models.py). -/
structure SummaryEntry where
  summary : String := ""
  leafUuid : Option String := none
  leafUuids : List String := []
  timestamp : Nat := 0
deriving DecidableEq

/-- FileHistorySnapshot (models.py). -/
structure FileHistorySnapshot where
  messageId : String
  timestamp : Nat := 0
deriving DecidableEq

/-- CustomTitleEntry (models.py). -/
structure CustomTitleEntry where
  customTitle : String := ""
  timestamp : Nat := 0
deriving DecidableEq

/-- PrLinkEntry (models.py). -/
structure PrLinkEntry where
  sessionId : String
  prNumber : Nat
  timestamp : Nat := 0
deriving DecidableEq

/-- SessionEntry: the tagged union of all record kinds (models.py). -/
inductive SessionEntry where
  | queueOperation (q : QueueOperation)
  | user (u : UserEntry)
  | assistant (a : AssistantEntry)
  | progress (p : ProgressEntry)
  | system (s : SystemEntry)
  | fileHistorySnapshot (f : FileHistorySnapshot)
  | summary (s : SummaryEntry)
  | customTitle (c : CustomTitleEntry)
  | prLink (p : PrLinkEntry)
deriving DecidableEq

/-- TreeEntry: the kinds that participate in the uuid tree (models.py). -/
inductive TreeEntry where
  | user (u : UserEntry)
  | assistant (a : AssistantEntry)
  | progress (p : ProgressEntry)
  | system (s : SystemEntry)
deriving DecidableEq

/-- Identifier of a tree entry. -/
def TreeEntry.uuid : TreeEntry → String
  | .user u => u.uuid
  | .assistant a => a.uuid
  | .progress p => p.uuid
  | .system s => s.uuid

/-- Raw parentUuid field of a tree entry; the assistant field is a required
string, so it comes back as `some`. -/
def TreeEntry.parentUuid : TreeEntry → Option String
  | .user u => u.parentUuid
  | .assistant a => some a.parentUuid
  | .progress p => p.parentUuid
  | .system s => s.parentUuid

/-- Session id of a tree entry (SystemEntry's is already optional). -/
def TreeEntry.sessionId : TreeEntry → Option String
  | .user u => some u.sessionId
  | .assistant a => some a.sessionId
  | .progress p => some p.sessionId
  | .system s => s.sessionId

/-- Timestamp of a tree entry. -/
def TreeEntry.timestamp : TreeEntry → Nat
  | .user u => u.timestamp
  | .assistant a => a.timestamp
  | .progress p => p.timestamp
  | .system s => s.timestamp

/-- Python truthiness of the parentUuid field as used by `if r.parentUuid` in
_TreeIndex.build and by the loop guard of walk_path: None and "" are falsy. -/
def pyParent (e : TreeEntry) : Option String :=
  match e.parentUuid with
  | none => none
  | some s => if s = "" then none else some s

/-- The isinstance(r, (UserEntry, AssistantEntry, ProgressEntry, SystemEntry))
filter of _TreeIndex.build. -/
def treeEntryOf : SessionEntry → Option TreeEntry
  | .user u => some (.user u)
  | .assistant a => some (.assistant a)
  | .progress p => some (.progress p)
  | .system s => some (.system s)
  | _ => none

/-- Re-embed a tree entry into the record union. -/
def SessionEntry.ofTree : TreeEntry → SessionEntry
  | .user u => .user u
  | .assistant a => .assistant a
  | .progress p => .progress p
  | .system s => .system s

/-- Timestamp of any record. -/
def SessionEntry.timestamp : SessionEntry → Nat
  | .queueOperation q => q.timestamp
  | .user u => u.timestamp
  | .assistant a => a.timestamp
  | .progress p => p.timestamp
  | .system s => s.timestamp
  | .fileHistorySnapshot f => f.timestamp
  | .summary s => s.timestamp
  | .customTitle c => c.timestamp
  | .prLink p => p.timestamp

/-- Everything of a tree entry except its identifier, parent link and session
id: the part forking preserves. -/
inductive EntryContent where
  | user (message : UserMessagePayload) (cwd : String) (gitBranch : Option String)
      (timestamp : Nat)
  | assistant (message : AssistantMessagePayload) (cwd : String)
      (gitBranch : Option String) (timestamp : Nat)
  | progress (timestamp : Nat)
  | system (subtype : Option String) (timestamp : Nat)
deriving DecidableEq

/-- Content projection of a tree entry. -/
def TreeEntry.content : TreeEntry → EntryContent
  | .user u => .user u.message u.cwd u.gitBranch u.timestamp
  | .assistant a => .assistant a.message a.cwd a.gitBranch a.timestamp
  | .progress p => .progress p.timestamp
  | .system s => .system s.subtype s.timestamp

/-- Association-list lookup mirroring a Python dict get (keys are unique by
construction of insertEntry). -/
def lookupUuid : List (String × List TreeEntry) → String → Option (List TreeEntry)
  | [], _ => none
  | (k, l) :: rest, u => if k = u then some l else lookupUuid rest u

/-- The by_uuid.setdefault(r.uuid, []).append(r) step of _TreeIndex.build: an
insertion-ordered dict, appending to the existing bucket or adding a new key at
the end. -/
def insertEntry : List (String × List TreeEntry) → String → TreeEntry →
    List (String × List TreeEntry)
  | [], k, e => [(k, [e])]
  | (k', l) :: rest, k, e =>
    if k' = k then (k', l ++ [e]) :: rest else (k', l) :: insertEntry rest k e

/-- Lazy-built index for tree navigation (_TreeIndex in models.py). by_uuid is
insertion ordered like a Python dict; parent_refs is used only through
membership, so a list stands in for the set. -/
structure TreeIndex where
  by_uuid : List (String × List TreeEntry)
  parent_refs : List String
deriving DecidableEq

/-- One iteration of the record loop in _TreeIndex.build. -/
def buildStep (t : TreeIndex) (r : SessionEntry) : TreeIndex :=
  match treeEntryOf r with
  | none => t
  | some e =>
    { by_uuid := insertEntry t.by_uuid e.uuid e
      parent_refs :=
        match pyParent e with
        | some p => p :: t.parent_refs
        | none => t.parent_refs }

/-- Builds the index from the record sequence (_TreeIndex.build). -/
def TreeIndex.build (records : List SessionEntry) : TreeIndex :=
  records.foldl buildStep ⟨[], []⟩

/-- Read-only container for loading and querying conversation records
(Conversation in models.py). The lazy _tree_cache is a pure optimization and
is not modelled; tree is computed on demand. -/
structure Conversation where
  records : List SessionEntry
deriving DecidableEq

/-- The (cached, here recomputed) tree index of a conversation. -/
def Conversation.tree (c : Conversation) : TreeIndex :=
  TreeIndex.build c.records

/-- Entries whose uuid is never referenced as another entry's parentUuid
(Conversation.leaves). elist is nonempty for every built index, so getLast?
plays the role of elist[-1]. -/
def Conversation.leaves (c : Conversation) : List TreeEntry :=
  (c.tree).by_uuid.filterMap fun kv =>
    if kv.1 ∈ (c.tree).parent_refs then none else kv.2.getLast?

/-- The while loop of Conversation.walk_path: follows parentUuid links, with
the Python truthiness guard (falsy uid stops), the seen-set cycle guard, the
missing-or-empty bucket break, and elist[-1] as the authoritative record. -/
def walkLoop (t : TreeIndex) (seen : List String) (uid : Option String) :
    List TreeEntry :=
  match uid with
  | none => []
  | some u =>
    if u = "" then []
    else if hu : u ∈ seen then []
    else
      match hl : lookupUuid t.by_uuid u with
      | none => []
      | some elist =>
        match elist.getLast? with
        | none => []
        | some entry => entry :: walkLoop t (u :: seen) entry.parentUuid
termination_by (((t.by_uuid.map Prod.fst).toFinset \ seen.toFinset).card)
decreasing_by
  have hmemkeys : ∀ m : List (String × List TreeEntry),
      lookupUuid m u = some elist → u ∈ m.map Prod.fst := by
    intro m
    induction m with
    | nil => intro h; simp [lookupUuid] at h
    | cons kv rest ih =>
      intro h
      by_cases hk : kv.1 = u
      · simp [hk]
      · simp only [lookupUuid, hk, if_false] at h
        simpa using Or.inr (ih h)
  have hmem : u ∈ (t.by_uuid.map Prod.fst) := hmemkeys _ hl
  apply Finset.card_lt_card
  rw [Finset.ssubset_def]
  constructor
  · intro x hx
    simp only [List.toFinset_cons, Finset.mem_sdiff, Finset.mem_insert,
      List.mem_toFinset] at hx ⊢
    exact ⟨hx.1, fun h => hx.2 (Or.inr h)⟩
  · intro hsub
    have hu2 : u ∈ (t.by_uuid.map Prod.fst).toFinset \ seen.toFinset := by
      simp only [Finset.mem_sdiff, List.mem_toFinset]
      exact ⟨hmem, hu⟩
    have := hsub hu2
    simp [List.toFinset_cons, Finset.mem_sdiff, Finset.mem_insert,
      List.mem_toFinset] at this

/-- Walk the parentUuid chain from a leaf to the root (Conversation.walk_path);
returns the partial path leaf..root up to the break point. -/
def Conversation.walk_path (c : Conversation) (leaf_uuid : String) :
    List TreeEntry :=
  walkLoop c.tree [] (some leaf_uuid)

/-- The summary test of active_leaf on one record: isinstance(r, SummaryEntry)
and r.leafUuid (truthy) and r.leafUuid in t.by_uuid, yielding
t.by_uuid[r.leafUuid][-1]. -/
def summaryResolve (t : TreeIndex) (r : SessionEntry) : Option TreeEntry :=
  match r with
  | .summary s =>
    match s.leafUuid with
    | some u =>
      if u = "" then none
      else
        match lookupUuid t.by_uuid u with
        | some elist => elist.getLast?
        | none => none
    | none => none
  | _ => none

/-- The reversed-records scan of active_leaf: return on the first record whose
summary test resolves. -/
def scanSummaries (t : TreeIndex) : List SessionEntry → Option TreeEntry
  | [] => none
  | r :: rest =>
    match summaryResolve t r with
    | some e => some e
    | none => scanSummaries t rest

/-- Python max(xs, key=f): the first element attaining the maximum key, None on
an empty list (active_leaf guards the empty case explicitly). -/
def maxByDepth (f : TreeEntry → Nat) : List TreeEntry → Option TreeEntry
  | [] => none
  | x :: xs => some (xs.foldl (fun best y => if f best < f y then y else best) x)

/-- Tip of the active branch (Conversation.active_leaf): last summary's
leafUuid, else deepest leaf. -/
def Conversation.active_leaf (c : Conversation) : Option TreeEntry :=
  match scanSummaries c.tree c.records.reverse with
  | some e => some e
  | none => maxByDepth (fun e => (c.walk_path e.uuid).length) c.leaves

/-- One line of a JSONL file, classified the way the readers classify it:
blank after strip, json.loads raises, validate_python raises, or a decoded
record. -/
inductive Line where
  | blank
  | badJson
  | badSchema
  | record (e : SessionEntry)
deriving DecidableEq

/-- The record a line decodes to, if any. -/
def lineRecord : Line → Option SessionEntry
  | .record e => some e
  | _ => none

/-- Line loop of Conversation.from_jsonl: blank lines and lines that are not
valid JSON are skipped (continue); adapter.validate_python is not wrapped in a
try, so a schema failure raises out of the whole load (Except.error). -/
def fromJsonlLines : List Line → Except Unit (List SessionEntry)
  | [] => .ok []
  | .blank :: rest => fromJsonlLines rest
  | .badJson :: rest => fromJsonlLines rest
  | .badSchema :: _ => .error ()
  | .record e :: rest => (fromJsonlLines rest).map (e :: ·)

/-- Conversation.from_jsonl: an unavailable file (open raises, uncaught) and a
schema-invalid line both end in an exception; otherwise the decodable records
are returned in line order. -/
def Conversation.from_jsonl (file : Option (List Line)) :
    Except Unit Conversation :=
  match file with
  | none => .error ()
  | some lines => (fromJsonlLines lines).map Conversation.mk

/-- Line loop of watcher.load_session: the try block wraps the whole loop, so
json.loads or validate_python raising on any line aborts the whole load
(returns None); only blank lines are skipped. -/
def loadLines : List Line → Option (List SessionEntry)
  | [] => some []
  | .blank :: rest => loadLines rest
  | .badJson :: _ => none
  | .badSchema :: _ => none
  | .record e :: rest => (loadLines rest).map (e :: ·)

/-- watcher.load_session: None for an unavailable file (FileNotFoundError,
OSError) or any malformed line. -/
def load_session (file : Option (List Line)) : Option (List SessionEntry) :=
  match file with
  | none => none
  | some lines => loadLines lines

/-- The isinstance(entry, AssistantEntry) filter of ConversationWatcher. -/
def assistantOf : SessionEntry → Option AssistantEntry
  | .assistant a => some a
  | _ => none

/-- ConversationWatcher._process with the record count as the state: returns
the new count and the assistant entries handed to the handler, in file order.
A handler exception is caught after the call, so the handler is still invoked
exactly once per new assistant entry. -/
def watcherProcess (count : Nat) (file : Option (List Line)) :
    Nat × List AssistantEntry :=
  match load_session file with
  | none => (count, [])
  | some entries =>
    if entries.length ≤ count then (count, [])
    else (entries.length, (entries.drop count).filterMap assistantOf)

/-- The initial blocking load of ConversationWatcher.start: none models the
sys.exit(1) failure path, some n a watcher started at record count n. -/
def watcherStart (file : Option (List Line)) : Option Nat :=
  match load_session file with
  | none => none
  | some entries => some entries.length

/-- models.py _make_timestamp: now plus an offset in seconds, in milliseconds. -/
def mkTimestamp (now : Nat) (offsetSeconds : Nat) : Nat :=
  now + 1000 * offsetSeconds

/-- An Anthropic API style message dict as consumed by Session.from_messages;
msg.get defaults make both fields effectively total. -/
structure MessageDict where
  role : String := ""
  content : RawContent := .str ""
deriving DecidableEq

/-- The assistant content-block loop of from_messages: keep text and thinking
blocks whose payload field is a string, drop everything else. -/
def msgBlocks : List RawBlock → List ContentBlock
  | [] => []
  | .text (some s) :: rest => .text s :: msgBlocks rest
  | .thinking (some s) :: rest => .thinking s none :: msgBlocks rest
  | .text none :: rest => msgBlocks rest
  | .thinking none :: rest => msgBlocks rest
  | .other :: rest => msgBlocks rest

/-- The user branch of from_messages: content if it is a string, else "". -/
def userContentStr : RawContent → String
  | .str s => s
  | .blocks _ => ""

/-- The assistant branch of from_messages: a single text block from string
content, else the filtered blocks. -/
def asstBlocks : RawContent → List ContentBlock
  | .str s => [.text s]
  | .blocks bs => msgBlocks bs

/-- The record issued by from_messages for message number i with the given
parent, when the role is user or assistant (other roles issue nothing). The
uuid4 supply is determinized as a function of the message index. -/
def msgTree (uuids : Nat → String) (now : Nat) (sid : String) (cwd : String)
    (gb : Option String) (parent : Option String) (i : Nat) (m : MessageDict) :
    TreeEntry :=
  if m.role = "user" then
    .user
      { uuid := uuids i
        parentUuid := parent
        sessionId := sid
        message := { content := .str (userContentStr m.content) }
        cwd := cwd
        gitBranch := gb
        timestamp := mkTimestamp now ((i + 1) * 30) }
  else
    .assistant
      { uuid := uuids i
        parentUuid := parent.getD ""
        sessionId := sid
        message := { content := asstBlocks m.content }
        cwd := cwd
        gitBranch := gb
        timestamp := mkTimestamp now ((i + 1) * 30) }

/-- One iteration of the message loop of Session.from_messages, on the state
(entries so far, parent_uuid, enumerate index). -/
def fromMessagesStep (uuids : Nat → String) (now : Nat) (sid : String)
    (cwd : String) (gb : Option String)
    (st : List SessionEntry × Option String × Nat) (m : MessageDict) :
    List SessionEntry × Option String × Nat :=
  let acc := st.1
  let parent := st.2.1
  let i := st.2.2
  if m.role = "user" ∨ m.role = "assistant" then
    let e := msgTree uuids now sid cwd gb parent i m
    (acc ++ [SessionEntry.ofTree e], some e.uuid, i + 1)
  else
    (acc, parent, i + 1)

/-- High-level session (Session in models.py). -/
structure Session where
  session_id : String
  cwd : String := "."
  git_branch : Option String := some "main"
  entries : List SessionEntry := []
deriving DecidableEq

/-- Session.from_messages: a queue-operation marker at offset 0, then one
entry per user or assistant message, each 30 logical seconds apart, parent
linked to the previous issued entry. -/
def Session.from_messages (uuids : Nat → String) (now : Nat)
    (messages : List MessageDict) (sid : String) (cwd : String)
    (gb : Option String) : Session :=
  let q : QueueOperation :=
    { sessionId := sid, timestamp := mkTimestamp now 0 }
  let st := messages.foldl (fromMessagesStep uuids now sid cwd gb)
    ([SessionEntry.queueOperation q], none, 0)
  { session_id := sid, cwd := cwd, git_branch := gb, entries := st.1 }

/-- Session.to_jsonl: one line per entry. model_dump_json of a well-formed
entry parses and schema-validates back to the same record, so a serialized
line is a Line.record. -/
def Session.to_jsonl (s : Session) : List Line :=
  s.entries.map Line.record

/-- Modelled from the spec: re-issuing one tree entry under a fresh identifier,
parent link and session id while preserving its content, the per-node step of
fork_session (reduck.models is not under src/). -/
def reissue (u : String) (parent : Option String) (sid : String) :
    TreeEntry → TreeEntry
  | .user e => .user { e with uuid := u, parentUuid := parent, sessionId := sid }
  | .assistant e =>
    .assistant { e with uuid := u, parentUuid := parent.getD "", sessionId := sid }
  | .progress e =>
    .progress { e with uuid := u, parentUuid := parent, sessionId := sid }
  | .system e =>
    .system { e with uuid := u, parentUuid := parent, sessionId := some sid }

/-- Modelled from the spec: the ancestry chain re-issued in root..target order,
entry number j receiving uuid (uuids j) and the previous fresh uuid as parent
(none for the root). -/
def forkChain (uuids : Nat → String) (sid : String) :
    Option String → Nat → List TreeEntry → List TreeEntry
  | _, _, [] => []
  | parent, i, e :: rest =>
    reissue (uuids i) parent sid e :: forkChain uuids sid (some (uuids i)) (i + 1) rest

/-- Modelled from the spec: fork_session (imported by the archived server from
reduck.models, which is not under src/). Spec 4.5: given an existing log and a
target identifier inside its tree, produce a new session whose tree entries
are the ancestry chain up to and including the target (root..target),
re-issued under a new session identifier; records past the target are not
copied, and the original file is never mutated (this model is pure, so the
input conversation is untouched by construction). -/
def fork_session (uuids : Nat → String) (newSid : String) (c : Conversation)
    (target : String) : Conversation :=
  ⟨(forkChain uuids newSid none 0 (c.walk_path target).reverse).map
    SessionEntry.ofTree⟩

/-- The tree entries of a record sequence carrying a given identifier, in line
order; the last element is the authoritative occurrence. -/
def treeOccs (rs : List SessionEntry) (u : String) : List TreeEntry :=
  (rs.filterMap treeEntryOf).filter fun e => e.uuid == u

/-- Last occurrence with a given identifier, the authoritative record for
navigation. -/
def lastOcc (rs : List SessionEntry) (u : String) : Option TreeEntry :=
  (treeOccs rs u).getLast?

/-- Active-leaf resolution in the spec's wording (amended on one point: the
resolving Summary's leafUuid must be non-empty): scan records in reverse
issuance order and take the first Summary whose leafUuid resolves to a known
tree entry; if none resolves, fall back to the deepest leaf with ties broken
by first-encountered order; none when there is nothing to pick. -/
def activeLeafSpec (c : Conversation) : Option TreeEntry :=
  match (c.records.reverse.filterMap (summaryResolve c.tree)).head? with
  | some e => some e
  | none => maxByDepth (fun e => (c.walk_path e.uuid).length) c.leaves

/-- Parent links forming a single unbranched chain: the first entry's
(truthiness-normalized) parent is p, and each later entry's parent is the
uuid of its predecessor. -/
inductive ParentChain : Option String → List TreeEntry → Prop
  | nil (p : Option String) : ParentChain p []
  | cons (p : Option String) (e : TreeEntry) (rest : List TreeEntry)
      (hp : pyParent e = p) (hrest : ParentChain (some e.uuid) rest) :
      ParentChain p (e :: rest)

/-- Every message has role user or assistant. -/
def GoodRoles (messages : List MessageDict) : Prop :=
  ∀ m ∈ messages, m.role = "user" ∨ m.role = "assistant"

/-- A default tree entry for List.getD. -/
def defaultTE : TreeEntry :=
  .user
    { uuid := ""
      parentUuid := none
      sessionId := ""
      message := { content := .str "" }
      cwd := "."
      gitBranch := none
      timestamp := 0 }

/-- The tree entries the from_messages loop issues for a message list,
starting at enumerate index i with the given parent; under GoodRoles every
message issues exactly one entry. -/
def msgChain (uuids : Nat → String) (now : Nat) (sid : String) (cwd : String)
    (gb : Option String) : Option String → Nat → List MessageDict → List TreeEntry
  | _, _, [] => []
  | parent, i, m :: ms =>
    msgTree uuids now sid cwd gb parent i m ::
      msgChain uuids now sid cwd gb (some (uuids i)) (i + 1) ms

/-- The parent_uuid state after the from_messages loop. -/
def lastParent (uuids : Nat → String) :
    Option String → Nat → List MessageDict → Option String
  | parent, _, [] => parent
  | _, i, _ :: ms => lastParent uuids (some (uuids i)) (i + 1) ms

/-- Example log: two entries whose parentUuid fields point at each other. -/
def cycleRecords : List SessionEntry :=
  [SessionEntry.user
    { uuid := "a", parentUuid := some "b", sessionId := "s",
      message := { content := RawContent.str "one" } },
   SessionEntry.user
    { uuid := "b", parentUuid := some "a", sessionId := "s",
      message := { content := RawContent.str "two" } }]

/-- Example log: a two-node chain, root "a" to tip "b". -/
def chainRecords : List SessionEntry :=
  [SessionEntry.user
    { uuid := "a", parentUuid := none, sessionId := "s",
      message := { content := RawContent.str "root" } },
   SessionEntry.user
    { uuid := "b", parentUuid := some "a", sessionId := "s",
      message := { content := RawContent.str "tip" } }]

/-- The root entry of chainRecords. -/
def chainRootTE : TreeEntry :=
  .user
    { uuid := "a", parentUuid := none, sessionId := "s",
      message := { content := RawContent.str "root" } }

/-- The tip entry of chainRecords. -/
def chainTipTE : TreeEntry :=
  .user
    { uuid := "b", parentUuid := some "a", sessionId := "s",
      message := { content := RawContent.str "tip" } }

/-- Example log: the identifier "a" re-emitted with different content, as
after a retried write. -/
def dupRecords : List SessionEntry :=
  [SessionEntry.user
    { uuid := "a", parentUuid := none, sessionId := "s",
      message := { content := RawContent.str "first" } },
   SessionEntry.user
    { uuid := "a", parentUuid := none, sessionId := "s",
      message := { content := RawContent.str "second" } }]

/-- The last occurrence of "a" in dupRecords. -/
def dupLastTE : TreeEntry :=
  .user
    { uuid := "a", parentUuid := none, sessionId := "s",
      message := { content := RawContent.str "second" } }

/-- Example log: a tree entry with the empty string as identifier, a second
entry "x", and a Summary whose leafUuid is the empty string. -/
def emptyUuidRecords : List SessionEntry :=
  [SessionEntry.user
    { uuid := "", parentUuid := none, sessionId := "s",
      message := { content := RawContent.str "one" } },
   SessionEntry.user
    { uuid := "x", parentUuid := none, sessionId := "s",
      message := { content := RawContent.str "two" } },
   SessionEntry.summary { leafUuid := some "" }]

/-- The entry of emptyUuidRecords whose identifier is the empty string. -/
def emptyUuidTE : TreeEntry :=
  .user
    { uuid := "", parentUuid := none, sessionId := "s",
      message := { content := RawContent.str "one" } }

/-- The entry "x" of emptyUuidRecords. -/
def xUuidTE : TreeEntry :=
  .user
    { uuid := "x", parentUuid := none, sessionId := "s",
      message := { content := RawContent.str "two" } }

/-- Example log: one entry "a" and a Summary resolving to it. -/
def summaryRecords : List SessionEntry :=
  [SessionEntry.user
    { uuid := "a", parentUuid := none, sessionId := "s",
      message := { content := RawContent.str "hello" } },
   SessionEntry.summary { leafUuid := some "a" }]

/-- The entry "a" of summaryRecords. -/
def summaryTE : TreeEntry :=
  .user
    { uuid := "a", parentUuid := none, sessionId := "s",
      message := { content := RawContent.str "hello" } }

/-- A concrete fresh-identifier supply for fork examples. -/
def freshUuids : Nat → String := fun k => if k = 0 then "n0" else "n1"

/-- Unfolding of treeOccs over a cons. -/
theorem treeOccs_cons (r : SessionEntry) (rest : List SessionEntry) (u : String) :
    treeOccs (r :: rest) u =
      match treeEntryOf r with
      | some e => if e.uuid = u then e :: treeOccs rest u else treeOccs rest u
      | none => treeOccs rest u := by
  cases h : treeEntryOf r with
  | none => simp [treeOccs, List.filterMap_cons, h]
  | some e =>
    by_cases hu : e.uuid = u
    · simp [treeOccs, List.filterMap_cons, h, List.filter_cons, hu]
    · simp [treeOccs, List.filterMap_cons, h, List.filter_cons, hu]

/-- Lookup after a dict-style insert: the inserted key's bucket grows by the
entry, every other key is untouched. -/
theorem lookup_insertEntry (m : List (String × List TreeEntry)) (k : String)
    (e : TreeEntry) (u : String) :
    lookupUuid (insertEntry m k e) u =
      if u = k then some ((lookupUuid m k).getD [] ++ [e]) else lookupUuid m u := by
  induction m with
  | nil =>
    by_cases h : u = k
    · simp [insertEntry, lookupUuid, h]
    · have h2 : ¬ k = u := fun hh => h hh.symm
      simp [insertEntry, lookupUuid, h, h2]
  | cons kv rest ih =>
    obtain ⟨k', l⟩ := kv
    by_cases hk : k' = k
    · subst hk
      by_cases hu : u = k'
      · simp [insertEntry, lookupUuid, hu]
      · have hu2 : ¬ k' = u := fun hh => hu hh.symm
        simp [insertEntry, lookupUuid, hu, hu2]
    · by_cases hu : k' = u
      · subst hu
        have hx : ¬ k' = k := hk
        have hx2 : ¬ k' = k := fun hh => hk hh
        simp [insertEntry, lookupUuid, hk, hx2]
      · simp [insertEntry, lookupUuid, hk, hu, ih]

/-- Folding build over more records extends an already-present bucket by the
occurrences among those records. -/
theorem lookup_foldl_some (rs : List SessionEntry) :
    ∀ (t : TreeIndex) (u : String) (l : List TreeEntry),
      lookupUuid t.by_uuid u = some l →
      lookupUuid ((rs.foldl buildStep t).by_uuid) u = some (l ++ treeOccs rs u) := by
  induction rs with
  | nil => intro t u l h; simpa [treeOccs] using h
  | cons r rest ih =>
    intro t u l h
    rw [List.foldl_cons, treeOccs_cons]
    cases hr : treeEntryOf r with
    | none =>
      have hstep : buildStep t r = t := by simp [buildStep, hr]
      simp only [hstep]
      exact ih t u l h
    | some e =>
      have hby : (buildStep t r).by_uuid = insertEntry t.by_uuid e.uuid e := by
        simp [buildStep, hr]
      by_cases hu : e.uuid = u
      · have hlook : lookupUuid (buildStep t r).by_uuid u = some (l ++ [e]) := by
          rw [hby, lookup_insertEntry, if_pos hu.symm, hu, h]
          rfl
        have := ih (buildStep t r) u (l ++ [e]) hlook
        simp only [hu, if_pos rfl] at *
        rw [this]
        simp
      · have hlook : lookupUuid (buildStep t r).by_uuid u = some l := by
          rw [hby, lookup_insertEntry, if_neg (fun hh => hu hh.symm)]
          exact h
        have := ih (buildStep t r) u l hlook
        simp only [hu, if_neg, ite_false] at *
        rw [this]

/-- Folding build over records starting from an absent key yields exactly the
occurrences among those records (none when there are none). -/
theorem lookup_foldl_none (rs : List SessionEntry) :
    ∀ (t : TreeIndex) (u : String),
      lookupUuid t.by_uuid u = none →
      lookupUuid ((rs.foldl buildStep t).by_uuid) u =
        if (treeOccs rs u).isEmpty then none else some (treeOccs rs u) := by
  induction rs with
  | nil => intro t u h; simpa [treeOccs] using h
  | cons r rest ih =>
    intro t u h
    rw [List.foldl_cons, treeOccs_cons]
    cases hr : treeEntryOf r with
    | none =>
      have hstep : buildStep t r = t := by simp [buildStep, hr]
      simp only [hstep]
      exact ih t u h
    | some e =>
      have hby : (buildStep t r).by_uuid = insertEntry t.by_uuid e.uuid e := by
        simp [buildStep, hr]
      by_cases hu : e.uuid = u
      · have hlook : lookupUuid (buildStep t r).by_uuid u = some [e] := by
          rw [hby, lookup_insertEntry, if_pos hu.symm, hu, h]
          rfl
        have := lookup_foldl_some rest (buildStep t r) u [e] hlook
        simp only [hu, if_pos rfl]
        rw [this]
        simp
      · have hlook : lookupUuid (buildStep t r).by_uuid u = none := by
          rw [hby, lookup_insertEntry, if_neg (fun hh => hu hh.symm)]
          exact h
        have := ih (buildStep t r) u hlook
        simp only [hu, ite_false, if_neg]
        rw [this]

/-- Lookup on a built index: exactly the line-ordered occurrences of the
identifier, none when there are none. -/
theorem built_lookup (rs : List SessionEntry) (u : String) :
    lookupUuid (TreeIndex.build rs).by_uuid u =
      if (treeOccs rs u).isEmpty then none else some (treeOccs rs u) :=
  lookup_foldl_none rs ⟨[], []⟩ u rfl

/-- A successful lookup on a built index is the occurrence list, and it is
nonempty. -/
theorem built_lookup_some (rs : List SessionEntry) (u : String)
    (l : List TreeEntry) (h : lookupUuid (TreeIndex.build rs).by_uuid u = some l) :
    l = treeOccs rs u ∧ l ≠ [] := by
  rw [built_lookup] at h
  by_cases he : (treeOccs rs u).isEmpty
  · simp [he] at h
  · rw [if_neg he] at h
    cases h
    exact ⟨rfl, fun hh => he (by simp [hh])⟩

/-- Every element of an occurrence list carries the identifier it is indexed
under. -/
theorem treeOccs_uuid (rs : List SessionEntry) (u : String) (e : TreeEntry)
    (h : e ∈ treeOccs rs u) : e.uuid = u := by
  have := List.of_mem_filter h
  simpa using this

/-- Membership in parent_refs of a built index: some tree entry's truthy
parentUuid is that identifier. -/
theorem parent_refs_foldl (rs : List SessionEntry) :
    ∀ (t : TreeIndex) (u : String),
      (u ∈ (rs.foldl buildStep t).parent_refs ↔
        u ∈ t.parent_refs ∨ ∃ e ∈ rs.filterMap treeEntryOf, pyParent e = some u) := by
  induction rs with
  | nil => intro t u; simp
  | cons r rest ih =>
    intro t u
    rw [List.foldl_cons]
    cases hr : treeEntryOf r with
    | none =>
      have hstep : buildStep t r = t := by simp [buildStep, hr]
      rw [hstep, ih t u, List.filterMap_cons, hr]
    | some e =>
      rw [ih (buildStep t r) u, List.filterMap_cons, hr]
      cases hp : pyParent e with
      | none =>
        have hrefs : (buildStep t r).parent_refs = t.parent_refs := by
          simp [buildStep, hr, hp]
        rw [hrefs]
        constructor
        · rintro (h | ⟨e', he', hpe⟩)
          · exact Or.inl h
          · exact Or.inr ⟨e', List.mem_cons_of_mem _ he', hpe⟩
        · rintro (h | ⟨e', he', hpe⟩)
          · exact Or.inl h
          · rcases List.mem_cons.1 he' with rfl | he'
            · rw [hp] at hpe; cases hpe
            · exact Or.inr ⟨e', he', hpe⟩
      | some p =>
        have hrefs : (buildStep t r).parent_refs = p :: t.parent_refs := by
          simp [buildStep, hr, hp]
        rw [hrefs]
        constructor
        · rintro (h | ⟨e', he', hpe⟩)
          · rcases List.mem_cons.1 h with rfl | h
            · exact Or.inr ⟨e, List.mem_cons_self _ _, hp⟩
            · exact Or.inl h
          · exact Or.inr ⟨e', List.mem_cons_of_mem _ he', hpe⟩
        · rintro (h | ⟨e', he', hpe⟩)
          · exact Or.inl (List.mem_cons_of_mem _ h)
          · rcases List.mem_cons.1 he' with rfl | he'
            · rw [hp] at hpe
              cases hpe
              exact Or.inl (List.mem_cons_self _ _)
            · exact Or.inr ⟨e', he', hpe⟩

/-- Membership in parent_refs of a built index. -/
theorem built_parent_refs (rs : List SessionEntry) (u : String) :
    u ∈ (TreeIndex.build rs).parent_refs ↔
      ∃ e ∈ rs.filterMap treeEntryOf, pyParent e = some u := by
  rw [TreeIndex.build, parent_refs_foldl rs ⟨[], []⟩ u]
  simp

/-- Lookup fails exactly off the key list. -/
theorem lookup_none_iff (m : List (String × List TreeEntry)) (u : String) :
    lookupUuid m u = none ↔ u ∉ m.map Prod.fst := by
  induction m with
  | nil => simp [lookupUuid]
  | cons kv rest ih =>
    by_cases h : kv.1 = u
    · simp [lookupUuid, h]
    · have h2 : ¬ u = kv.1 := fun hh => h hh.symm
      simp [lookupUuid, h, ih, h2]

/-- Successful step of the walk loop. -/
theorem walkLoop_step (t : TreeIndex) (seen : List String) (u : String)
    (h1 : ¬ u = "") (h2 : u ∉ seen) (elist : List TreeEntry)
    (h3 : lookupUuid t.by_uuid u = some elist) (entry : TreeEntry)
    (h4 : elist.getLast? = some entry) :
    walkLoop t seen (some u) = entry :: walkLoop t (u :: seen) entry.parentUuid := by
  rw [walkLoop]
  rw [if_neg h1, dif_neg h2]
  split
  · next heq => rw [h3] at heq; cases heq
  · next elist2 heq =>
    rw [h3] at heq
    cases heq
    split
    · next hg => rw [h4] at hg; cases hg
    · next entry2 hg =>
      rw [h4] at hg
      cases hg
      rfl

/-- A stop condition yields an empty walk. -/
theorem walkLoop_stop (t : TreeIndex) (seen : List String) (u : String)
    (h : u = "" ∨ u ∈ seen ∨ lookupUuid t.by_uuid u = none ∨
      ∃ elist, lookupUuid t.by_uuid u = some elist ∧ elist.getLast? = none) :
    walkLoop t seen (some u) = [] := by
  rw [walkLoop]
  by_cases h1 : u = ""
  · rw [if_pos h1]
  rw [if_neg h1]
  by_cases h2 : u ∈ seen
  · rw [dif_pos h2]
  rw [dif_neg h2]
  rcases h with h | h | h | ⟨el, hl, hg⟩
  · exact absurd h h1
  · exact absurd h h2
  · split
    · rfl
    · next el2 heq => rw [h] at heq; cases heq
  · split
    · rfl
    · next el2 heq =>
      rw [hl] at heq
      cases heq
      split
      · rfl
      · next e2 hgeq => rw [hg] at hgeq; cases hgeq

/-- Inverting an empty walk: one of the stop conditions held. -/
theorem walkLoop_eq_nil (t : TreeIndex) (seen : List String) (uid : Option String)
    (h : walkLoop t seen uid = []) :
    uid = none ∨
      ∃ u, uid = some u ∧
        (u = "" ∨ u ∈ seen ∨ lookupUuid t.by_uuid u = none ∨
          ∃ elist, lookupUuid t.by_uuid u = some elist ∧ elist.getLast? = none) := by
  cases uid with
  | none => exact Or.inl rfl
  | some u =>
    refine Or.inr ⟨u, rfl, ?_⟩
    by_cases h1 : u = ""
    · exact Or.inl h1
    by_cases h2 : u ∈ seen
    · exact Or.inr (Or.inl h2)
    cases h3 : lookupUuid t.by_uuid u with
    | none => exact Or.inr (Or.inr (Or.inl rfl))
    | some elist =>
      cases h4 : elist.getLast? with
      | none => exact Or.inr (Or.inr (Or.inr ⟨elist, rfl, h4⟩))
      | some entry =>
        rw [walkLoop_step t seen u h1 h2 elist h3 entry h4] at h
        cases h

/-- Invariants of the walk loop over an index with coherent buckets: the path
never revisits seen identifiers, its identifiers are distinct, its head is the
requested identifier, consecutive entries are parent linked, it ends at a stop
condition, and every entry is the last element of its bucket. -/
theorem walkLoop_spec (t : TreeIndex)
    (ht : ∀ u l e, lookupUuid t.by_uuid u = some l → e ∈ l → e.uuid = u)
    (hv : ∀ u l, lookupUuid t.by_uuid u = some l → l ≠ []) :
    ∀ (seen : List String) (uid : Option String),
      (∀ e ∈ walkLoop t seen uid, e.uuid ∉ seen) ∧
      ((walkLoop t seen uid).map TreeEntry.uuid).Nodup ∧
      (∀ e, (walkLoop t seen uid).head? = some e → uid = some e.uuid) ∧
      List.Chain' (fun a b => a.parentUuid = some b.uuid) (walkLoop t seen uid) ∧
      (∀ e, (walkLoop t seen uid).getLast? = some e →
        pyParent e = none ∨
          ∃ u, pyParent e = some u ∧
            (lookupUuid t.by_uuid u = none ∨ u ∈ seen ∨
              u ∈ (walkLoop t seen uid).map TreeEntry.uuid)) ∧
      (∀ e ∈ walkLoop t seen uid,
        ∃ l, lookupUuid t.by_uuid e.uuid = some l ∧ l.getLast? = some e) := by
  intro seen uid
  induction seen, uid using walkLoop.induct t with
  | case1 seen => simp [walkLoop]
  | case2 seen =>
    rw [walkLoop_stop t seen "" (Or.inl rfl)]
    simp
  | case3 seen u h1 h2 =>
    rw [walkLoop_stop t seen u (Or.inr (Or.inl h2))]
    simp
  | case4 seen u h1 h2 h3 =>
    rw [walkLoop_stop t seen u (Or.inr (Or.inr (Or.inl h3)))]
    simp
  | case5 seen u h1 h2 elist h3 h4 =>
    rw [walkLoop_stop t seen u (Or.inr (Or.inr (Or.inr ⟨elist, h3, h4⟩)))]
    simp
  | case6 seen u h1 h2 elist h3 entry h4 ih =>
    have h2' : u ∉ seen := h2
    have heq := walkLoop_step t seen u h1 h2' elist h3 entry h4
    have hentry : entry ∈ elist := List.mem_of_mem_getLast? h4
    have huuid : entry.uuid = u := ht u elist entry h3 hentry
    obtain ⟨ih1, ih2, ih3, ih4, ih5, ih6⟩ := ih
    rw [heq]
    refine ⟨?_, ?_, ?_, ?_, ?_, ?_⟩
    · intro e he
      rcases List.mem_cons.1 he with rfl | he
      · rw [huuid]; exact h2'
      · exact fun hs => ih1 e he (List.mem_cons_of_mem _ hs)
    · rw [List.map_cons, List.nodup_cons]
      refine ⟨?_, ih2⟩
      intro hmem
      rcases List.mem_map.1 hmem with ⟨e, he, hee⟩
      exact ih1 e he (by rw [hee, huuid]; exact List.mem_cons_self _ _)
    · intro e he
      simp only [List.head?_cons, Option.some.injEq] at he
      rw [← he, huuid]
    · rw [List.chain'_cons']
      refine ⟨?_, ih4⟩
      intro b hb
      have := ih3 b hb
      rw [this]
    · intro e he
      cases hr : walkLoop t (u :: seen) entry.parentUuid with
      | nil =>
        rw [hr] at he
        simp only [List.getLast?_singleton, Option.some.injEq] at he
        subst he
        rcases walkLoop_eq_nil t (u :: seen) entry.parentUuid hr with hn | ⟨u', hu', hstop⟩
        · left; simp [pyParent, hn]
        · by_cases hemp : u' = ""
          · left; simp [pyParent, hu', hemp]
          · right
            refine ⟨u', by simp [pyParent, hu', hemp], ?_⟩
            rcases hstop with h | h | h | ⟨elist', hl', hg'⟩
            · exact absurd h hemp
            · rcases List.mem_cons.1 h with rfl | h
              · right; right; simp [huuid]
              · right; left; exact h
            · left; exact h
            · exact absurd (by rw [List.getLast?_eq_none_iff] at hg'; exact hg')
                (hv u' elist' hl')
      | cons x xs =>
        rw [hr] at he
        rw [List.getLast?_cons_cons] at he
        have hlast : (walkLoop t (u :: seen) entry.parentUuid).getLast? = some e := by
          rw [hr]; exact he
        rcases ih5 e hlast with h | ⟨u', hu', hwhere⟩
        · exact Or.inl h
        · refine Or.inr ⟨u', hu', ?_⟩
          rcases hwhere with h | h | h
          · exact Or.inl h
          · rcases List.mem_cons.1 h with rfl | h
            · right; right; simp [huuid]
            · right; left; exact h
          · right; right
            rw [hr] at h
            exact List.mem_cons_of_mem _ h
    · intro e he
      rcases List.mem_cons.1 he with rfl | he
      · exact ⟨elist, by rw [huuid]; exact h3, h4⟩
      · exact ih6 e he

/-- Buckets of a built index hold only entries carrying the bucket's key. -/
theorem built_keysOk (rs : List SessionEntry) :
    ∀ (u : String) (l : List TreeEntry) (e : TreeEntry),
      lookupUuid (TreeIndex.build rs).by_uuid u = some l → e ∈ l → e.uuid = u := by
  intro u l e hl he
  obtain ⟨hocc, -⟩ := built_lookup_some rs u l hl
  exact treeOccs_uuid rs u e (hocc ▸ he)

/-- Buckets of a built index are nonempty. -/
theorem built_valsNonempty (rs : List SessionEntry) :
    ∀ (u : String) (l : List TreeEntry),
      lookupUuid (TreeIndex.build rs).by_uuid u = some l → l ≠ [] := by
  intro u l hl
  exact (built_lookup_some rs u l hl).2

/-- Keys after a dict-style insert: unchanged for a present key, the new key
appended for an absent one. -/
theorem insertEntry_keys (k : String) (e : TreeEntry) :
    ∀ m : List (String × List TreeEntry),
      (insertEntry m k e).map Prod.fst =
        if k ∈ m.map Prod.fst then m.map Prod.fst else m.map Prod.fst ++ [k] := by
  intro m
  induction m with
  | nil => simp [insertEntry]
  | cons kv rest ih =>
    obtain ⟨k', l⟩ := kv
    by_cases hk : k' = k
    · subst hk
      simp [insertEntry]
    · have hk2 : ¬ k = k' := fun hh => hk hh.symm
      by_cases hmem : k ∈ rest.map Prod.fst
      · simp [insertEntry, hk, ih, hmem, hk2]
      · simp [insertEntry, hk, ih, hmem, hk2]

/-- Building preserves distinctness of the key list. -/
theorem foldl_keys_nodup (rs : List SessionEntry) :
    ∀ t : TreeIndex, (t.by_uuid.map Prod.fst).Nodup →
      ((rs.foldl buildStep t).by_uuid.map Prod.fst).Nodup := by
  induction rs with
  | nil => intro t h; exact h
  | cons r rest ih =>
    intro t h
    rw [List.foldl_cons]
    apply ih
    cases hr : treeEntryOf r with
    | none =>
      have hstep : buildStep t r = t := by simp [buildStep, hr]
      rw [hstep]; exact h
    | some e =>
      have hby : (buildStep t r).by_uuid = insertEntry t.by_uuid e.uuid e := by
        simp [buildStep, hr]
      rw [hby, insertEntry_keys]
      by_cases hm : e.uuid ∈ t.by_uuid.map Prod.fst
      · rw [if_pos hm]; exact h
      · rw [if_neg hm]
        simp [List.nodup_append, h, hm]

/-- Distinct keys of a built index. -/
theorem built_keys_nodup (rs : List SessionEntry) :
    ((TreeIndex.build rs).by_uuid.map Prod.fst).Nodup :=
  foldl_keys_nodup rs ⟨[], []⟩ (by simp)

/-- With distinct keys, dict items look up to their own bucket. -/
theorem lookup_of_mem_nodup :
    ∀ m : List (String × List TreeEntry), (m.map Prod.fst).Nodup →
      ∀ kv ∈ m, lookupUuid m kv.1 = some kv.2 := by
  intro m
  induction m with
  | nil => simp
  | cons kv0 rest ih =>
    intro hnd kv hkv
    rcases List.mem_cons.1 hkv with rfl | hkv
    · simp [lookupUuid]
    · have hk : ¬ kv0.1 = kv.1 := by
        intro hh
        have hmem : kv.1 ∈ rest.map Prod.fst := List.mem_map.2 ⟨kv, hkv, rfl⟩
        rw [List.map_cons, List.nodup_cons] at hnd
        exact hnd.1 (hh ▸ hmem)
      rw [List.map_cons, List.nodup_cons] at hnd
      simpa [lookupUuid, hk] using ih hnd.2 kv hkv

/-- The reversed-records scan is the head of the filtered resolutions. -/
theorem scanSummaries_eq (t : TreeIndex) :
    ∀ l : List SessionEntry,
      scanSummaries t l = (l.filterMap (summaryResolve t)).head? := by
  intro l
  induction l with
  | nil => simp [scanSummaries]
  | cons r rest ih =>
    cases h : summaryResolve t r with
    | none => simp [scanSummaries, h, List.filterMap_cons, ih]
    | some e => simp [scanSummaries, h, List.filterMap_cons]

/-- The Python max fold keeps the first element attaining the maximum key. -/
theorem foldl_max_spec (f : TreeEntry → Nat) :
    ∀ (xs : List TreeEntry) (acc : TreeEntry),
      ∃ m, xs.foldl (fun best y => if f best < f y then y else best) acc = m ∧
        ((m = acc ∧ ∀ z ∈ xs, f z ≤ f acc) ∨
          ∃ pre post, xs = pre ++ m :: post ∧ f acc < f m ∧
            (∀ z ∈ pre, f z < f m) ∧ (∀ z ∈ post, f z ≤ f m)) := by
  intro xs
  induction xs with
  | nil => intro acc; exact ⟨acc, rfl, Or.inl ⟨rfl, by simp⟩⟩
  | cons y ys ih =>
    intro acc
    rw [List.foldl_cons]
    by_cases hy : f acc < f y
    · rw [if_pos hy]
      obtain ⟨m, hm, hcase⟩ := ih y
      refine ⟨m, hm, Or.inr ?_⟩
      rcases hcase with ⟨hma, hall⟩ | ⟨pre, post, hys, hlt, hpre, hpost⟩
      · subst hma
        exact ⟨[], ys, by simp, hy, by simp, hall⟩
      · refine ⟨y :: pre, post, by rw [hys]; rfl, lt_trans hy hlt, ?_, hpost⟩
        intro z hz
        rcases List.mem_cons.1 hz with rfl | hz
        · exact hlt
        · exact hpre z hz
    · rw [if_neg hy]
      push_neg at hy
      obtain ⟨m, hm, hcase⟩ := ih acc
      refine ⟨m, hm, ?_⟩
      rcases hcase with ⟨hma, hall⟩ | ⟨pre, post, hys, hlt, hpre, hpost⟩
      · refine Or.inl ⟨hma, ?_⟩
        intro z hz
        rcases List.mem_cons.1 hz with rfl | hz
        · exact hy
        · exact hall z hz
      · refine Or.inr ⟨y :: pre, post, by rw [hys]; rfl, hlt, ?_, hpost⟩
        intro z hz
        rcases List.mem_cons.1 hz with rfl | hz
        · exact lt_of_le_of_lt hy hlt
        · exact hpre z hz

/-- Python max over a nonempty list: the first element attaining the maximum. -/
theorem maxByDepth_spec (f : TreeEntry → Nat) (x : TreeEntry) (xs : List TreeEntry) :
    ∃ m, maxByDepth f (x :: xs) = some m ∧
      ∃ pre post, x :: xs = pre ++ m :: post ∧
        (∀ z ∈ pre, f z < f m) ∧ (∀ z ∈ post, f z ≤ f m) := by
  obtain ⟨m, hm, hcase⟩ := foldl_max_spec f xs x
  refine ⟨m, by simp [maxByDepth, hm], ?_⟩
  rcases hcase with ⟨hma, hall⟩ | ⟨pre, post, hys, hlt, hpre, hpost⟩
  · subst hma
    exact ⟨[], xs, rfl, by simp, hall⟩
  · refine ⟨x :: pre, post, by rw [hys]; rfl, ?_, hpost⟩
    intro z hz
    rcases List.mem_cons.1 hz with rfl | hz
    · exact hlt
    · exact hpre z hz

/-- A tree entry embeds and projects back. -/
theorem treeEntryOf_ofTree (e : TreeEntry) :
    treeEntryOf (SessionEntry.ofTree e) = some e := by
  cases e <;> rfl

/-- Projecting a list of embedded tree entries recovers it. -/
theorem filterMap_ofTree (l : List TreeEntry) :
    (l.map SessionEntry.ofTree).filterMap treeEntryOf = l := by
  induction l with
  | nil => rfl
  | cons e rest ih => simp [List.filterMap_cons, treeEntryOf_ofTree, ih]

/-- A schema-invalid line anywhere makes from_jsonl raise. -/
theorem fromJsonlLines_error (lines : List Line) (h : Line.badSchema ∈ lines) :
    fromJsonlLines lines = .error () := by
  induction lines with
  | nil => cases h
  | cons l rest ih =>
    cases l with
    | blank =>
      rw [fromJsonlLines]
      exact ih (by simpa using h)
    | badJson =>
      rw [fromJsonlLines]
      exact ih (by simpa using h)
    | badSchema => rfl
    | record e =>
      rw [fromJsonlLines]
      rw [ih (by simpa using h)]
      rfl

/-- Without schema-invalid lines, from_jsonl returns the decodable records in
line order. -/
theorem fromJsonlLines_ok (lines : List Line) (h : Line.badSchema ∉ lines) :
    fromJsonlLines lines = .ok (lines.filterMap lineRecord) := by
  induction lines with
  | nil => rfl
  | cons l rest ih =>
    have hrest : Line.badSchema ∉ rest := fun hm => h (List.mem_cons_of_mem _ hm)
    cases l with
    | blank =>
      rw [fromJsonlLines, ih hrest]
      simp [List.filterMap_cons, lineRecord]
    | badJson =>
      rw [fromJsonlLines, ih hrest]
      simp [List.filterMap_cons, lineRecord]
    | badSchema => exact absurd (List.mem_cons_self _ _) h
    | record e =>
      rw [fromJsonlLines, ih hrest]
      simp [List.filterMap_cons, lineRecord, Except.map]

/-- Any malformed line makes load_session fail wholesale. -/
theorem loadLines_none (lines : List Line)
    (h : Line.badSchema ∈ lines ∨ Line.badJson ∈ lines) :
    loadLines lines = none := by
  induction lines with
  | nil => rcases h with h | h <;> cases h
  | cons l rest ih =>
    cases l with
    | blank =>
      rw [loadLines]
      refine ih ?_
      rcases h with h | h
      · exact Or.inl (by simpa using h)
      · exact Or.inr (by simpa using h)
    | badJson => rfl
    | badSchema => rfl
    | record e =>
      rw [loadLines]
      have : loadLines rest = none := by
        refine ih ?_
        rcases h with h | h
        · exact Or.inl (by simpa using h)
        · exact Or.inr (by simpa using h)
      rw [this]
      rfl

/-- Without malformed lines, load_session returns the records in line order. -/
theorem loadLines_some (lines : List Line) (h1 : Line.badSchema ∉ lines)
    (h2 : Line.badJson ∉ lines) :
    loadLines lines = some (lines.filterMap lineRecord) := by
  induction lines with
  | nil => rfl
  | cons l rest ih =>
    have h1r : Line.badSchema ∉ rest := fun hm => h1 (List.mem_cons_of_mem _ hm)
    have h2r : Line.badJson ∉ rest := fun hm => h2 (List.mem_cons_of_mem _ hm)
    cases l with
    | blank =>
      rw [loadLines, ih h1r h2r]
      simp [List.filterMap_cons, lineRecord]
    | badJson => exact absurd (List.mem_cons_self _ _) h2
    | badSchema => exact absurd (List.mem_cons_self _ _) h1
    | record e =>
      rw [loadLines, ih h1r h2r]
      simp [List.filterMap_cons, lineRecord]

/-- C1 (amended): Conversation.from_jsonl skips blank lines and lines that are
not valid JSON and returns the remaining decodable records in line order, but
a line of valid JSON that fails schema decoding raises and aborts the whole
load; the watcher's load_session skips only blank lines and fails wholesale
(None) on any line that is not valid JSON or that fails schema decoding; an
unavailable file fails both loads. -/
theorem claim_C1 (lines : List Line) :
    (Conversation.from_jsonl (some lines) = Except.error () ↔
      Line.badSchema ∈ lines) ∧
    (Line.badSchema ∉ lines →
      Conversation.from_jsonl (some lines) =
        Except.ok ⟨lines.filterMap lineRecord⟩) ∧
    (load_session (some lines) = none ↔
      Line.badSchema ∈ lines ∨ Line.badJson ∈ lines) ∧
    (Line.badSchema ∉ lines → Line.badJson ∉ lines →
      load_session (some lines) = some (lines.filterMap lineRecord)) ∧
    Conversation.from_jsonl none = Except.error () ∧
    load_session none = none := by
  refine ⟨⟨fun h => ?_, fun h => ?_⟩, fun h => ?_, ⟨fun h => ?_, fun h => ?_⟩,
    fun h1 h2 => ?_, rfl, rfl⟩
  · by_contra hmem
    have := fromJsonlLines_ok lines hmem
    have hj : Conversation.from_jsonl (some lines) =
        Except.ok ⟨lines.filterMap lineRecord⟩ := by
      show (fromJsonlLines lines).map Conversation.mk = _
      rw [this]
      rfl
    rw [hj] at h
    cases h
  · show (fromJsonlLines lines).map Conversation.mk = _
    rw [fromJsonlLines_error lines h]
    rfl
  · show (fromJsonlLines lines).map Conversation.mk = _
    rw [fromJsonlLines_ok lines h]
    rfl
  · by_contra hmem
    push_neg at hmem
    have := loadLines_some lines hmem.1 hmem.2
    have hj : load_session (some lines) = some (lines.filterMap lineRecord) := this
    rw [hj] at h
    cases h
  · exact loadLines_none lines h
  · exact loadLines_some lines h1 h2

/-- C1 witness: a blank line and a non-JSON line are skipped by from_jsonl and
the decodable record is still returned. -/
theorem claim_C1_witness :
    Conversation.from_jsonl
        (some [Line.blank, Line.badJson, Line.record (SessionEntry.summary {})]) =
      Except.ok ⟨[SessionEntry.summary {}]⟩ :=
  (claim_C1 [Line.blank, Line.badJson,
    Line.record (SessionEntry.summary {})]).2.1 (by decide)

/-- C1 counterexample: a schema-invalid line aborts the whole from_jsonl load,
and a single non-JSON line makes load_session return none, even though a
decodable record is present in both files — against the claim that such lines
are merely skipped. -/
theorem claim_C1_counterexample :
    Conversation.from_jsonl
        (some [Line.record (SessionEntry.summary {}), Line.badSchema]) =
      Except.error () ∧
    load_session (some [Line.record (SessionEntry.summary {}), Line.badJson]) =
      none := by
  constructor <;> rfl

/-- C3: a reprocessing pass whose reload fails or shrinks leaves the count and
emits nothing; a growing reload emits exactly the assistant entries among the
new positions, in file order, and advances the count. -/
theorem claim_C3 (count : Nat) (file : Option (List Line)) :
    (load_session file = none → watcherProcess count file = (count, [])) ∧
    (∀ entries, load_session file = some entries → entries.length ≤ count →
      watcherProcess count file = (count, [])) ∧
    (∀ entries, load_session file = some entries → count < entries.length →
      watcherProcess count file =
        (entries.length, (entries.drop count).filterMap assistantOf)) := by
  refine ⟨fun h => ?_, fun entries h hle => ?_, fun entries h hlt => ?_⟩
  · simp [watcherProcess, h]
  · simp [watcherProcess, h, hle]
  · simp [watcherProcess, h, Nat.not_le.2 hlt]

/-- C3 witness: starting from count 1 over a two-record file, the one new
record is an assistant entry and is emitted once, and the count advances. -/
theorem claim_C3_witness :
    watcherProcess 1
        (some [Line.record (SessionEntry.summary {}),
          Line.record (SessionEntry.assistant
            { uuid := "b", parentUuid := "a", sessionId := "s",
              message := { content := [] } })]) =
      (2, [{ uuid := "b", parentUuid := "a", sessionId := "s",
             message := { content := [] } }]) :=
  (claim_C3 1 (some [Line.record (SessionEntry.summary {}),
      Line.record (SessionEntry.assistant
        { uuid := "b", parentUuid := "a", sessionId := "s",
          message := { content := [] } })])).2.2
    [SessionEntry.summary {},
      SessionEntry.assistant
        { uuid := "b", parentUuid := "a", sessionId := "s",
          message := { content := [] } }] rfl (by decide)

/-- C9 (amended): the watcher's initial count is the length of the first
blocking load and it fails to start exactly when that load fails; a file that
is empty after skipping loads successfully as zero records rather than
counting as InvalidLog. -/
theorem claim_C9 (file : Option (List Line)) :
    (watcherStart file = none ↔ load_session file = none) ∧
    (∀ es, load_session file = some es → watcherStart file = some es.length) := by
  refine ⟨⟨fun h => ?_, fun h => ?_⟩, fun es h => ?_⟩
  · cases hl : load_session file with
    | none => rfl
    | some es => simp [watcherStart, hl] at h
  · simp [watcherStart, h]
  · simp [watcherStart, h]

/-- C9 witness: a watcher over a one-record file starts at count 1. -/
theorem claim_C9_witness :
    watcherStart (some [Line.record (SessionEntry.summary {})]) = some 1 :=
  (claim_C9 (some [Line.record (SessionEntry.summary {})])).2
    [SessionEntry.summary {}] rfl

/-- C9 counterexample: a file that is empty after skipping blank lines loads
as zero records and the watcher starts at count 0 — it does not fail with
InvalidLog as the claim's taxonomy clause says. -/
theorem claim_C9_counterexample :
    load_session (some [Line.blank]) = some [] ∧
    watcherStart (some [Line.blank]) = some 0 := by
  constructor <;> rfl

/-- C10: a log whose tree entries form a parent cycle has tree entries, yet an
empty leaf list and no active leaf — an absent active leaf does not imply an
absence of tree entries. -/
theorem claim_C10 :
    cycleRecords.filterMap treeEntryOf ≠ [] ∧
    Conversation.leaves ⟨cycleRecords⟩ = [] ∧
    Conversation.active_leaf ⟨cycleRecords⟩ = none := by
  refine ⟨by decide, by decide, ?_⟩
  have hscan : scanSummaries (Conversation.tree ⟨cycleRecords⟩)
      (Conversation.mk cycleRecords).records.reverse = none := by decide
  have hleaves : Conversation.leaves ⟨cycleRecords⟩ = [] := by decide
  rw [Conversation.active_leaf, hscan, hleaves]
  rfl

/-- A successful lookup exhibits its key-bucket pair as a dict item. -/
theorem mem_of_lookup :
    ∀ (m : List (String × List TreeEntry)) (u : String) (l : List TreeEntry),
      lookupUuid m u = some l → (u, l) ∈ m := by
  intro m
  induction m with
  | nil => intro u l h; cases h
  | cons kv rest ih =>
    intro u l h
    by_cases hk : kv.1 = u
    · rw [lookupUuid] at h
      rw [if_pos hk] at h
      cases h
      rcases kv with ⟨k1, l1⟩
      rcases hk
      exact List.mem_cons_self _ _
    · rw [lookupUuid] at h
      rw [if_neg hk] at h
      exact List.mem_cons_of_mem _ (ih u l h)

/-- Every leaf is the last element of its bucket and its identifier is never a
parent reference. -/
theorem leaves_charact (c : Conversation) :
    ∀ e ∈ c.leaves,
      e.uuid ∉ c.tree.parent_refs ∧
        ∃ l, lookupUuid c.tree.by_uuid e.uuid = some l ∧ l.getLast? = some e := by
  intro e he
  obtain ⟨kv, hkv, hf⟩ := List.mem_filterMap.1 he
  by_cases hmem : kv.1 ∈ c.tree.parent_refs
  · rw [if_pos hmem] at hf
    cases hf
  · rw [if_neg hmem] at hf
    have hlook : lookupUuid c.tree.by_uuid kv.1 = some kv.2 :=
      lookup_of_mem_nodup c.tree.by_uuid (built_keys_nodup c.records) kv hkv
    have hin : e ∈ kv.2 := List.mem_of_mem_getLast? hf
    have huuid : e.uuid = kv.1 := built_keysOk c.records kv.1 kv.2 e hlook hin
    rw [huuid]
    exact ⟨hmem, kv.2, hlook, hf⟩

/-- C8: leaves are exactly the authoritative entries of by_uuid whose
identifier is not referenced as a parent; leaf identifiers are disjoint from
parent_refs and every indexed identifier lands in exactly one of the two
sets. -/
theorem claim_C8 (c : Conversation) :
    (∀ e ∈ c.leaves, e.uuid ∉ c.tree.parent_refs) ∧
    (∀ e ∈ c.leaves,
      ∃ l, lookupUuid c.tree.by_uuid e.uuid = some l ∧ l.getLast? = some e) ∧
    (∀ u, (lookupUuid c.tree.by_uuid u).isSome →
      ((∃ e ∈ c.leaves, e.uuid = u) ↔ u ∉ c.tree.parent_refs)) := by
  refine ⟨fun e he => (leaves_charact c e he).1,
    fun e he => (leaves_charact c e he).2, fun u hu => ?_⟩
  constructor
  · rintro ⟨e, he, rfl⟩
    exact (leaves_charact c e he).1
  · intro hmem
    cases hl : lookupUuid c.tree.by_uuid u with
    | none => rw [hl] at hu; cases hu
    | some l =>
      have hne : l ≠ [] := built_valsNonempty c.records u l hl
      cases hg : l.getLast? with
      | none => exact absurd (List.getLast?_eq_none_iff.1 hg) hne
      | some e =>
        have hkv : (u, l) ∈ c.tree.by_uuid := mem_of_lookup c.tree.by_uuid u l hl
        have hin : e ∈ c.leaves := by
          apply List.mem_filterMap.2
          exact ⟨(u, l), hkv, by rw [if_neg hmem]; exact hg⟩
        have huuid : e.uuid = u :=
          built_keysOk c.records u l e hl (List.mem_of_mem_getLast? hg)
        exact ⟨e, hin, huuid⟩

/-- C8 witness: in the two-node chain, the tip "b" is a leaf and its
identifier is not referenced as a parent. -/
theorem claim_C8_witness :
    TreeEntry.uuid chainTipTE ∉ (Conversation.tree ⟨chainRecords⟩).parent_refs :=
  (claim_C8 ⟨chainRecords⟩).1 chainTipTE (by decide)

/-- Certified last occurrence: the bucket of a built index ends in the last
line-ordered occurrence of the identifier. -/
theorem lastOcc_of_lookup (rs : List SessionEntry) (u : String)
    (l : List TreeEntry) (e : TreeEntry)
    (hl : lookupUuid (TreeIndex.build rs).by_uuid u = some l)
    (hg : l.getLast? = some e) : lastOcc rs u = some e := by
  obtain ⟨hocc, -⟩ := built_lookup_some rs u l hl
  rw [lastOcc, ← hocc]
  exact hg

/-- Inverting a successful summary resolution: the result is the last element
of the bucket of some identifier. -/
theorem summaryResolve_inv (t : TreeIndex) (r : SessionEntry) (e : TreeEntry)
    (h : summaryResolve t r = some e) :
    ∃ u elist, lookupUuid t.by_uuid u = some elist ∧ elist.getLast? = some e := by
  cases r with
  | summary s =>
    rw [summaryResolve] at h
    split at h
    · rename_i u hu
      split at h
      · cases h
      · split at h
        · rename_i elist hl
          exact ⟨u, elist, hl, h⟩
        · cases h
    · cases h
  | queueOperation q => cases h
  | user uu => cases h
  | assistant a => cases h
  | progress p => cases h
  | system s => cases h
  | fileHistorySnapshot f => cases h
  | customTitle ct => cases h
  | prLink pl => cases h

/-- C7: every navigation query — leaves, walk_path, and the Summary lookup
inside active_leaf — yields, for each identifier it reports, the last
line-ordered occurrence of that identifier. -/
theorem claim_C7 (c : Conversation) :
    (∀ e ∈ c.leaves, lastOcc c.records e.uuid = some e) ∧
    (∀ (s : String), ∀ e ∈ c.walk_path s, lastOcc c.records e.uuid = some e) ∧
    (∀ e, scanSummaries c.tree c.records.reverse = some e →
      lastOcc c.records e.uuid = some e) := by
  refine ⟨fun e he => ?_, fun s e he => ?_, fun e he => ?_⟩
  · obtain ⟨-, l, hl, hg⟩ := leaves_charact c e he
    exact lastOcc_of_lookup c.records e.uuid l e hl hg
  · have h := (walkLoop_spec c.tree (built_keysOk c.records)
      (built_valsNonempty c.records) [] (some s)).2.2.2.2.2
    obtain ⟨l, hl, hg⟩ := h e he
    exact lastOcc_of_lookup c.records e.uuid l e hl hg
  · rw [scanSummaries_eq] at he
    have hmem : e ∈ c.records.reverse.filterMap (summaryResolve c.tree) :=
      List.mem_of_mem_head? he
    obtain ⟨r, -, hr⟩ := List.mem_filterMap.1 hmem
    obtain ⟨u, elist, hl, hg⟩ := summaryResolve_inv c.tree r e hr
    have huuid : e.uuid = u :=
      built_keysOk c.records u elist e hl (List.mem_of_mem_getLast? hg)
    rw [huuid]
    exact lastOcc_of_lookup c.records u elist e hl hg

/-- C7 witness: with "a" emitted twice, the leaf reported for "a" is the
second (last) occurrence. -/
theorem claim_C7_witness :
    lastOcc dupRecords (TreeEntry.uuid dupLastTE) = some dupLastTE :=
  (claim_C7 ⟨dupRecords⟩).1 dupLastTE (by decide)

/-- C4: walk_path terminates (it is a total function of this development),
visits each identifier at most once, walks parent links from the requested
identifier, and stops exactly at a break condition — falsy parent, unresolved
parent, or an identifier already visited — returning the partial path. -/
theorem claim_C4 (c : Conversation) (s : String) :
    ((c.walk_path s).map TreeEntry.uuid).Nodup ∧
    (∀ e, (c.walk_path s).head? = some e → e.uuid = s) ∧
    List.Chain' (fun a b => a.parentUuid = some b.uuid) (c.walk_path s) ∧
    (∀ e, (c.walk_path s).getLast? = some e →
      pyParent e = none ∨
        ∃ u, pyParent e = some u ∧
          (lookupUuid c.tree.by_uuid u = none ∨
            u ∈ (c.walk_path s).map TreeEntry.uuid)) := by
  have h := walkLoop_spec c.tree (built_keysOk c.records)
    (built_valsNonempty c.records) [] (some s)
  refine ⟨h.2.1, fun e he => ?_, h.2.2.2.1, fun e he => ?_⟩
  · have := h.2.2.1 e he
    cases this
    rfl
  · rcases h.2.2.2.2.1 e he with hn | ⟨u, hu, hwhere⟩
    · exact Or.inl hn
    · refine Or.inr ⟨u, hu, ?_⟩
      rcases hwhere with hw | hw | hw
      · exact Or.inl hw
      · cases hw
      · exact Or.inr hw

/-- A walk from no identifier is empty. -/
theorem walkLoop_none (t : TreeIndex) (seen : List String) :
    walkLoop t seen none = [] := by
  rw [walkLoop]

/-- C4 witness: on the two-node chain, the walk from "b" has distinct
identifiers and starts at the entry carrying "b". -/
theorem claim_C4_witness :
    TreeEntry.uuid chainTipTE = "b" ∧
    ((Conversation.walk_path ⟨chainRecords⟩ "b").map TreeEntry.uuid).Nodup := by
  have hw : Conversation.walk_path ⟨chainRecords⟩ "b" = [chainTipTE, chainRootTE] := by
    rw [Conversation.walk_path]
    rw [walkLoop_step _ [] "b" (by decide) (by simp) [chainTipTE] (by decide)
      chainTipTE (by decide)]
    have hp1 : chainTipTE.parentUuid = some "a" := by decide
    rw [hp1]
    rw [walkLoop_step _ ["b"] "a" (by decide) (by decide) [chainRootTE] (by decide)
      chainRootTE (by decide)]
    have hp2 : chainRootTE.parentUuid = none := by decide
    rw [hp2, walkLoop_none]
  refine ⟨(claim_C4 ⟨chainRecords⟩ "b").2.1 chainTipTE ?_,
    (claim_C4 ⟨chainRecords⟩ "b").1⟩
  rw [hw]
  rfl

/-- Records without tree entries leave the index accumulator untouched. -/
theorem foldl_no_tree :
    ∀ (rs : List SessionEntry) (t : TreeIndex),
      rs.filterMap treeEntryOf = [] → rs.foldl buildStep t = t := by
  intro rs
  induction rs with
  | nil => intro t _; rfl
  | cons r rest ih =>
    intro t h
    rw [List.filterMap_cons] at h
    cases hr : treeEntryOf r with
    | none =>
      rw [hr] at h
      rw [List.foldl_cons]
      have hstep : buildStep t r = t := by simp [buildStep, hr]
      rw [hstep]
      exact ih t h
    | some e => rw [hr] at h; cases h

/-- With an empty index no summary resolves. -/
theorem summaryResolve_empty (t : TreeIndex) (hby : t.by_uuid = [])
    (r : SessionEntry) : summaryResolve t r = none := by
  cases r with
  | summary s =>
    rw [summaryResolve]
    split
    · split
      · rfl
      · rw [hby]; rfl
    · rfl
  | queueOperation q => rfl
  | user uu => rfl
  | assistant a => rfl
  | progress p => rfl
  | system sy => rfl
  | fileHistorySnapshot f => rfl
  | customTitle ct => rfl
  | prLink pl => rfl

/-- C2 (amended): active_leaf scans records in reverse and the first Summary
whose non-empty leafUuid resolves to a known tree entry yields that bucket's
last entry; with no resolving Summary the deepest leaf wins, ties broken by
first-encountered order; with no tree entries at all the result is none. -/
theorem claim_C2 (c : Conversation) :
    c.active_leaf = activeLeafSpec c ∧
    (c.records.filterMap treeEntryOf = [] → c.active_leaf = none) ∧
    (∀ e, (c.records.reverse.filterMap (summaryResolve c.tree)).head? = some e →
      c.active_leaf = some e) ∧
    ((c.records.reverse.filterMap (summaryResolve c.tree)).head? = none →
      ∀ x xs, c.leaves = x :: xs →
        ∃ m, c.active_leaf = some m ∧
          ∃ pre post, c.leaves = pre ++ m :: post ∧
            (∀ z ∈ pre,
              (c.walk_path z.uuid).length < (c.walk_path m.uuid).length) ∧
            (∀ z ∈ post,
              (c.walk_path z.uuid).length ≤ (c.walk_path m.uuid).length)) := by
  refine ⟨?_, ?_, ?_, ?_⟩
  · rw [Conversation.active_leaf, activeLeafSpec, scanSummaries_eq]
  · intro hempty
    have htree : c.tree = ⟨[], []⟩ := by
      rw [Conversation.tree, TreeIndex.build]
      exact foldl_no_tree c.records ⟨[], []⟩ hempty
    have hres : ∀ r ∈ c.records.reverse, summaryResolve c.tree r = none :=
      fun r _ => summaryResolve_empty c.tree (by rw [htree]) r
    have hscan : c.records.reverse.filterMap (summaryResolve c.tree) = [] :=
      List.filterMap_eq_nil_iff.2 hres
    have hleaves : c.leaves = [] := by
      rw [Conversation.leaves, htree]
      rfl
    rw [Conversation.active_leaf, scanSummaries_eq, hscan, hleaves]
    rfl
  · intro e hhead
    rw [Conversation.active_leaf, scanSummaries_eq, hhead]
  · intro hnone x xs hleaves
    obtain ⟨m, hm, pre, post, hdecomp, hpre, hpost⟩ :=
      maxByDepth_spec (fun e => (c.walk_path e.uuid).length) x xs
    refine ⟨m, ?_, pre, post, by rw [hleaves, hdecomp], hpre, hpost⟩
    rw [Conversation.active_leaf, scanSummaries_eq, hnone]
    show maxByDepth (fun e => (c.walk_path e.uuid).length) c.leaves = some m
    rw [hleaves]
    exact hm

/-- C2 witness: a Summary with a resolving leafUuid determines the active
leaf. -/
theorem claim_C2_witness :
    Conversation.active_leaf ⟨summaryRecords⟩ = some summaryTE :=
  (claim_C2 ⟨summaryRecords⟩).2.2.1 summaryTE (by decide)

/-- C2 counterexample: the empty string is the identifier of a known tree
entry and a Summary carries it as leafUuid, yet active_leaf skips that Summary
(Python truthiness of the empty string) and yields the deeper leaf "x"
instead of the entry the claim's summary rule names. -/
theorem claim_C2_counterexample :
    lastOcc emptyUuidRecords "" = some emptyUuidTE ∧
    SessionEntry.summary { leafUuid := some "" } ∈ emptyUuidRecords ∧
    Conversation.active_leaf ⟨emptyUuidRecords⟩ = some xUuidTE ∧
    xUuidTE ≠ emptyUuidTE := by
  refine ⟨by decide, by decide, ?_, by decide⟩
  have hscan : scanSummaries (Conversation.tree ⟨emptyUuidRecords⟩)
      (Conversation.mk emptyUuidRecords).records.reverse = none := by decide
  have hleaves : Conversation.leaves ⟨emptyUuidRecords⟩ =
      [emptyUuidTE, xUuidTE] := by decide
  have hw1 : Conversation.walk_path ⟨emptyUuidRecords⟩ "" = [] := by
    rw [Conversation.walk_path]
    exact walkLoop_stop _ _ _ (Or.inl rfl)
  have hw2 : Conversation.walk_path ⟨emptyUuidRecords⟩ "x" = [xUuidTE] := by
    rw [Conversation.walk_path]
    rw [walkLoop_step _ [] "x" (by decide) (by simp) [xUuidTE] (by decide)
      xUuidTE (by decide)]
    have hp : xUuidTE.parentUuid = none := by decide
    rw [hp, walkLoop_none]
  rw [Conversation.active_leaf, hscan, hleaves]
  simp only [maxByDepth, List.foldl]
  have hu1 : TreeEntry.uuid emptyUuidTE = "" := rfl
  have hu2 : TreeEntry.uuid xUuidTE = "x" := rfl
  simp only [hu1, hu2, hw1, hw2]
  simp

/-- Both branches of msgTree issue the supplied identifier. -/
theorem msgTree_uuid (uuids : Nat → String) (now : Nat) (sid cwd : String)
    (gb : Option String) (parent : Option String) (i : Nat) (m : MessageDict) :
    (msgTree uuids now sid cwd gb parent i m).uuid = uuids i := by
  rw [msgTree]
  split <;> rfl

/-- Both branches of msgTree carry the offset timestamp. -/
theorem msgTree_timestamp (uuids : Nat → String) (now : Nat) (sid cwd : String)
    (gb : Option String) (parent : Option String) (i : Nat) (m : MessageDict) :
    (msgTree uuids now sid cwd gb parent i m).timestamp =
      mkTimestamp now ((i + 1) * 30) := by
  rw [msgTree]
  split <;> rfl

/-- With no parent, the issued entry's normalized parent link is none (the
assistant branch stores "" which is falsy). -/
theorem msgTree_pyParent_none (uuids : Nat → String) (now : Nat)
    (sid cwd : String) (gb : Option String) (i : Nat) (m : MessageDict) :
    pyParent (msgTree uuids now sid cwd gb none i m) = none := by
  rw [msgTree]
  split <;> simp [pyParent, TreeEntry.parentUuid]

/-- With a non-empty parent identifier, the issued entry's normalized parent
link is that identifier. -/
theorem msgTree_pyParent_some (uuids : Nat → String) (now : Nat)
    (sid cwd : String) (gb : Option String) (i : Nat) (m : MessageDict)
    (v : String) (hv : v ≠ "") :
    pyParent (msgTree uuids now sid cwd gb (some v) i m) = some v := by
  rw [msgTree]
  split <;> simp [pyParent, TreeEntry.parentUuid, hv]

/-- The from_messages loop, characterized: under GoodRoles it appends exactly
the issued chain and advances the parent and index state. -/
theorem fromMessages_foldl (uuids : Nat → String) (now : Nat) (sid cwd : String)
    (gb : Option String) :
    ∀ (msgs : List MessageDict) (acc : List SessionEntry)
      (parent : Option String) (i : Nat),
      GoodRoles msgs →
      msgs.foldl (fromMessagesStep uuids now sid cwd gb) (acc, parent, i) =
        (acc ++ (msgChain uuids now sid cwd gb parent i msgs).map SessionEntry.ofTree,
          lastParent uuids parent i msgs, i + msgs.length) := by
  intro msgs
  induction msgs with
  | nil => intro acc parent i _; simp [msgChain, lastParent]
  | cons m ms ih =>
    intro acc parent i h
    have hrole : m.role = "user" ∨ m.role = "assistant" :=
      h m (List.mem_cons_self _ _)
    have hgood : GoodRoles ms := fun x hx => h x (List.mem_cons_of_mem _ hx)
    rw [List.foldl_cons]
    have hstep : fromMessagesStep uuids now sid cwd gb (acc, parent, i) m =
        (acc ++ [SessionEntry.ofTree (msgTree uuids now sid cwd gb parent i m)],
          some (uuids i), i + 1) := by
      simp only [fromMessagesStep, if_pos hrole, msgTree_uuid]
    rw [hstep, ih _ _ _ hgood, msgChain, lastParent]
    have harith : i + 1 + ms.length = i + (m :: ms).length := by
      rw [List.length_cons]
      omega
    rw [harith]
    simp [List.append_assoc]

/-- The issued chain has one entry per message. -/
theorem msgChain_length (uuids : Nat → String) (now : Nat) (sid cwd : String)
    (gb : Option String) :
    ∀ (msgs : List MessageDict) (parent : Option String) (i : Nat),
      (msgChain uuids now sid cwd gb parent i msgs).length = msgs.length := by
  intro msgs
  induction msgs with
  | nil => intro parent i; rfl
  | cons m ms ih =>
    intro parent i
    rw [msgChain, List.length_cons, ih]
    rfl

/-- The issued chain is parent linked: each entry's normalized parent is its
predecessor's identifier, the given parent for the first. -/
theorem msgChain_chain (uuids : Nat → String) (now : Nat) (sid cwd : String)
    (gb : Option String) (hnz : ∀ n, uuids n ≠ "") :
    ∀ (msgs : List MessageDict) (parent : Option String) (i : Nat),
      (parent = none ∨ ∃ j, parent = some (uuids j)) →
      ParentChain parent (msgChain uuids now sid cwd gb parent i msgs) := by
  intro msgs
  induction msgs with
  | nil => intro parent i _; exact ParentChain.nil parent
  | cons m ms ih =>
    intro parent i hp
    rw [msgChain]
    refine ParentChain.cons _ _ _ ?_ ?_
    · rcases hp with rfl | ⟨j, rfl⟩
      · exact msgTree_pyParent_none uuids now sid cwd gb i m
      · exact msgTree_pyParent_some uuids now sid cwd gb i m _ (hnz j)
    · have h2 := ih (some (uuids i)) (i + 1) (Or.inr ⟨i, rfl⟩)
      rw [msgTree_uuid]
      exact h2

/-- The issued chain's timestamps advance by exactly 30 logical seconds. -/
theorem msgChain_timestamps (uuids : Nat → String) (now : Nat) (sid cwd : String)
    (gb : Option String) :
    ∀ (msgs : List MessageDict) (parent : Option String) (i : Nat) (prev : Nat),
      prev + 30000 ≤ mkTimestamp now ((i + 1) * 30) →
      List.Chain' (fun a b => a + 30000 ≤ b)
        (prev :: (msgChain uuids now sid cwd gb parent i msgs).map
          TreeEntry.timestamp) := by
  intro msgs
  induction msgs with
  | nil => intro parent i prev _; simp [msgChain]
  | cons m ms ih =>
    intro parent i prev hle
    rw [msgChain, List.map_cons, msgTree_timestamp, List.chain'_cons]
    refine ⟨hle, ?_⟩
    apply ih (some (uuids i)) (i + 1)
    simp only [mkTimestamp]
    omega

/-- Embedding a tree entry preserves its timestamp. -/
theorem ofTree_timestamp (e : TreeEntry) :
    SessionEntry.timestamp (SessionEntry.ofTree e) = e.timestamp := by
  cases e <;> rfl

/-- Serialized well-formed entries reload to themselves. -/
theorem fromJsonl_roundtrip (es : List SessionEntry) :
    fromJsonlLines (es.map Line.record) = .ok es := by
  induction es with
  | nil => rfl
  | cons e rest ih =>
    rw [List.map_cons, fromJsonlLines, ih]
    rfl

/-- C5: building a session from N user/assistant messages, serializing, and
reloading yields a QueueOperation marker followed by exactly N tree entries
whose normalized parent links form a single unbranched chain (none for the
first), with timestamps strictly increasing by at least 30 seconds. -/
theorem claim_C5 (uuids : Nat → String) (now : Nat) (msgs : List MessageDict)
    (sid cwd : String) (gb : Option String)
    (hroles : GoodRoles msgs) (hnz : ∀ n, uuids n ≠ "") :
    ∃ cv : Conversation,
      Conversation.from_jsonl
          (some ((Session.from_messages uuids now msgs sid cwd gb).to_jsonl)) =
        Except.ok cv ∧
      (∃ q : QueueOperation, cv.records.head? = some (.queueOperation q)) ∧
      (cv.records.filterMap treeEntryOf).length = msgs.length ∧
      ParentChain none (cv.records.filterMap treeEntryOf) ∧
      List.Chain' (fun a b => a + 30000 ≤ b)
        (cv.records.map SessionEntry.timestamp) := by
  have hentries : (Session.from_messages uuids now msgs sid cwd gb).entries =
      SessionEntry.queueOperation
          { sessionId := sid, timestamp := mkTimestamp now 0 } ::
        (msgChain uuids now sid cwd gb none 0 msgs).map SessionEntry.ofTree := by
    show (msgs.foldl (fromMessagesStep uuids now sid cwd gb)
      ([SessionEntry.queueOperation
          { sessionId := sid, timestamp := mkTimestamp now 0 }], none, 0)).1 = _
    rw [fromMessages_foldl uuids now sid cwd gb msgs _ none 0 hroles]
    rfl
  refine ⟨⟨(Session.from_messages uuids now msgs sid cwd gb).entries⟩,
    ?_, ?_, ?_, ?_, ?_⟩
  · show (fromJsonlLines
        ((Session.from_messages uuids now msgs sid cwd gb).entries.map
          Line.record)).map Conversation.mk = _
    rw [fromJsonl_roundtrip]
    rfl
  · rw [hentries]
    exact ⟨_, rfl⟩
  · show ((Session.from_messages uuids now msgs sid cwd gb).entries.filterMap
      treeEntryOf).length = msgs.length
    rw [hentries, List.filterMap_cons]
    show (((msgChain uuids now sid cwd gb none 0 msgs).map
      SessionEntry.ofTree).filterMap treeEntryOf).length = msgs.length
    rw [filterMap_ofTree, msgChain_length]
  · show ParentChain none
      ((Session.from_messages uuids now msgs sid cwd gb).entries.filterMap
        treeEntryOf)
    rw [hentries, List.filterMap_cons]
    show ParentChain none (((msgChain uuids now sid cwd gb none 0 msgs).map
      SessionEntry.ofTree).filterMap treeEntryOf)
    rw [filterMap_ofTree]
    exact msgChain_chain uuids now sid cwd gb hnz msgs none 0 (Or.inl rfl)
  · show List.Chain' (fun a b => a + 30000 ≤ b)
      ((Session.from_messages uuids now msgs sid cwd gb).entries.map
        SessionEntry.timestamp)
    rw [hentries, List.map_cons]
    have hmm : ((msgChain uuids now sid cwd gb none 0 msgs).map
        SessionEntry.ofTree).map SessionEntry.timestamp =
        (msgChain uuids now sid cwd gb none 0 msgs).map TreeEntry.timestamp := by
      rw [List.map_map]
      exact List.map_congr_left (fun e _ => ofTree_timestamp e)
    rw [hmm]
    show List.Chain' (fun a b => a + 30000 ≤ b)
      (SessionEntry.timestamp (SessionEntry.queueOperation
        { sessionId := sid, timestamp := mkTimestamp now 0 }) ::
        (msgChain uuids now sid cwd gb none 0 msgs).map TreeEntry.timestamp)
    apply msgChain_timestamps uuids now sid cwd gb msgs none 0
    simp only [SessionEntry.timestamp, mkTimestamp]
    omega

/-- C5 witness: the round trip at a concrete two-message list. -/
theorem claim_C5_witness :
    ∃ cv : Conversation,
      Conversation.from_jsonl
          (some ((Session.from_messages (fun _ => "u") 0
            [⟨"user", RawContent.str "hi"⟩, ⟨"assistant", RawContent.str "yo"⟩]
            "s" "." (some "main")).to_jsonl)) =
        Except.ok cv ∧
      (∃ q : QueueOperation, cv.records.head? = some (.queueOperation q)) ∧
      (cv.records.filterMap treeEntryOf).length =
        ([⟨"user", RawContent.str "hi"⟩,
          ⟨"assistant", RawContent.str "yo"⟩] : List MessageDict).length ∧
      ParentChain none (cv.records.filterMap treeEntryOf) ∧
      List.Chain' (fun a b => a + 30000 ≤ b)
        (cv.records.map SessionEntry.timestamp) := by
  have hnz : ∀ n : Nat, (fun _ : Nat => "u") n ≠ "" := by
    intro n
    show ("u" : String) ≠ ""
    decide
  exact claim_C5 (fun _ => "u") 0
    [⟨"user", RawContent.str "hi"⟩, ⟨"assistant", RawContent.str "yo"⟩]
    "s" "." (some "main") (by simp [GoodRoles]) hnz

/-- Re-issuing keeps the supplied identifier. -/
theorem reissue_uuid (u : String) (p : Option String) (sid : String)
    (e : TreeEntry) : (reissue u p sid e).uuid = u := by
  cases e <;> rfl

/-- Re-issuing preserves the content. -/
theorem reissue_content (u : String) (p : Option String) (sid : String)
    (e : TreeEntry) : (reissue u p sid e).content = e.content := by
  cases e <;> rfl

/-- Re-issuing stamps the new session id. -/
theorem reissue_sessionId (u : String) (p : Option String) (sid : String)
    (e : TreeEntry) : (reissue u p sid e).sessionId = some sid := by
  cases e <;> rfl

/-- Re-issuing under a present parent stores exactly that parent link. -/
theorem reissue_parent_some (u v sid : String) (e : TreeEntry) :
    (reissue u (some v) sid e).parentUuid = some v := by
  cases e <;> rfl

/-- Walking past a re-issued root stops: the stored parent is none, or the
falsy empty string for an assistant entry. -/
theorem walkLoop_reissue_root (t : TreeIndex) (seen : List String)
    (u sid : String) (e : TreeEntry) :
    walkLoop t seen (reissue u none sid e).parentUuid = [] := by
  cases e with
  | user x => exact walkLoop_none t seen
  | assistant x => exact walkLoop_stop t seen "" (Or.inl rfl)
  | progress x => exact walkLoop_none t seen
  | system x => exact walkLoop_none t seen

/-- A fork chain has one entry per ancestor. -/
theorem forkChain_length (uuids : Nat → String) (sid : String) :
    ∀ (es : List TreeEntry) (p : Option String) (i : Nat),
      (forkChain uuids sid p i es).length = es.length := by
  intro es
  induction es with
  | nil => intro p i; rfl
  | cons e rest ih =>
    intro p i
    rw [forkChain, List.length_cons, ih]
    rfl

/-- Positional characterization of a fork chain: entry j is ancestor j
re-issued under uuid (i+j) with the previous fresh uuid as parent. -/
theorem forkChain_getD (uuids : Nat → String) (sid : String) :
    ∀ (es : List TreeEntry) (p : Option String) (i j : Nat), j < es.length →
      (forkChain uuids sid p i es).getD j defaultTE =
        reissue (uuids (i + j))
          (if j = 0 then p else some (uuids (i + j - 1))) sid
          (es.getD j defaultTE) := by
  intro es
  induction es with
  | nil => intro p i j h; simp at h
  | cons e rest ih =>
    intro p i j h
    cases j with
    | zero => simp [forkChain]
    | succ j2 =>
      have h2 : j2 < rest.length := by simpa using h
      rw [forkChain, List.getD_cons_succ, List.getD_cons_succ, ih _ _ j2 h2]
      have hB : (if j2 = 0 then some (uuids i)
          else some (uuids (i + 1 + j2 - 1))) =
          (if j2 + 1 = 0 then p else some (uuids (i + (j2 + 1) - 1))) := by
        cases j2 with
        | zero => simp
        | succ k =>
          simp only [Nat.succ_ne_zero, if_false]
          have harith : i + 1 + (k + 1) - 1 = i + (k + 1 + 1) - 1 := by omega
          rw [harith]
      rw [hB]
      have hA : i + 1 + j2 = i + (j2 + 1) := by omega
      rw [hA]

/-- The identifiers along a fork chain are the fresh supply in order. -/
theorem forkChain_map_uuid (uuids : Nat → String) (sid : String) :
    ∀ (es : List TreeEntry) (p : Option String) (i : Nat),
      (forkChain uuids sid p i es).map TreeEntry.uuid =
        (List.range es.length).map (fun k => uuids (i + k)) := by
  intro es
  induction es with
  | nil => intro p i; rfl
  | cons e rest ih =>
    intro p i
    rw [forkChain, List.map_cons, reissue_uuid, ih (some (uuids i)) (i + 1),
      List.length_cons, List.range_succ_eq_map, List.map_cons, List.map_map]
    congr 1
    apply List.map_congr_left
    intro k _
    show uuids (i + 1 + k) = uuids (i + (k + 1))
    congr 1
    omega

/-- The contents along a fork chain are the ancestors' contents in order. -/
theorem forkChain_map_content (uuids : Nat → String) (sid : String) :
    ∀ (es : List TreeEntry) (p : Option String) (i : Nat),
      (forkChain uuids sid p i es).map TreeEntry.content =
        es.map TreeEntry.content := by
  intro es
  induction es with
  | nil => intro p i; rfl
  | cons e rest ih =>
    intro p i
    rw [forkChain, List.map_cons, reissue_content, List.map_cons,
      ih (some (uuids i)) (i + 1)]

/-- Every entry of a fork chain carries the new session id. -/
theorem forkChain_sessionId (uuids : Nat → String) (sid : String) :
    ∀ (es : List TreeEntry) (p : Option String) (i : Nat),
      ∀ e ∈ forkChain uuids sid p i es, e.sessionId = some sid := by
  intro es
  induction es with
  | nil => intro p i e he; cases he
  | cons x rest ih =>
    intro p i e he
    rw [forkChain] at he
    rcases List.mem_cons.1 he with rfl | he
    · exact reissue_sessionId _ _ _ _
    · exact ih (some (uuids i)) (i + 1) e he

/-- Mapping over a list equals mapping the positional reads over its index
range. -/
theorem map_getD_range {α : Type} (f : TreeEntry → α) :
    ∀ l : List TreeEntry,
      l.map f = (List.range l.length).map (fun k => f (l.getD k defaultTE)) := by
  intro l
  induction l with
  | nil => rfl
  | cons e rest ih =>
    rw [List.map_cons, List.length_cons, List.range_succ_eq_map, List.map_cons,
      List.map_map, ih]
    congr 1

/-- With pairwise distinct identifiers, filtering on the identifier of the
entry at position j returns exactly that entry. -/
theorem filter_uuid_nodup :
    ∀ (l : List TreeEntry), (l.map TreeEntry.uuid).Nodup →
      ∀ j, j < l.length →
        l.filter (fun e => e.uuid == (l.getD j defaultTE).uuid) =
          [l.getD j defaultTE] := by
  intro l
  induction l with
  | nil => intro _ j h; simp at h
  | cons x xs ih =>
    intro hnd j hj
    rw [List.map_cons, List.nodup_cons] at hnd
    cases j with
    | zero =>
      simp only [List.getD_cons_zero]
      rw [List.filter_cons]
      have hx : (x.uuid == x.uuid) = true := by simp
      rw [if_pos hx]
      have hrest : xs.filter (fun e => e.uuid == x.uuid) = [] := by
        rw [List.filter_eq_nil_iff]
        intro e he hb
        rw [beq_iff_eq] at hb
        exact hnd.1 (hb ▸ List.mem_map.2 ⟨e, he, rfl⟩)
      rw [hrest]
    | succ j2 =>
      have hj2 : j2 < xs.length := by simpa using hj
      simp only [List.getD_cons_succ]
      rw [List.filter_cons]
      have hmem : xs.getD j2 defaultTE ∈ xs := by
        rw [List.getD_eq_getElem xs defaultTE hj2]
        exact List.getElem_mem hj2
      have hx : (x.uuid == (xs.getD j2 defaultTE).uuid) = false := by
        rw [beq_eq_false_iff_ne]
        intro hb
        exact hnd.1 (hb ▸ List.mem_map.2 ⟨xs.getD j2 defaultTE, hmem, rfl⟩)
      rw [if_neg (by rw [hx]; exact Bool.false_ne_true)]
      exact ih hnd.2 j2 hj2

/-- Walking a fork chain from position j collects positions j down to 0. -/
theorem forkChain_walk (uuids : Nat → String) (sid : String) (es : List TreeEntry)
    (hnz : ∀ i ∈ List.range es.length, uuids i ≠ "")
    (hinj : ∀ i ∈ List.range es.length, ∀ j ∈ List.range es.length,
      uuids i = uuids j → i = j) :
    ∀ (j : Nat), j < es.length → ∀ (seen : List String),
      (∀ i, i ≤ j → uuids i ∉ seen) →
      walkLoop (TreeIndex.build ((forkChain uuids sid none 0 es).map
          SessionEntry.ofTree)) seen (some (uuids j)) =
        ((List.range (j + 1)).reverse).map
          (fun k => (forkChain uuids sid none 0 es).getD k defaultTE) := by
  have hlen : (forkChain uuids sid none 0 es).length = es.length :=
    forkChain_length uuids sid es none 0
  have huuid_k : ∀ k, k < es.length →
      ((forkChain uuids sid none 0 es).getD k defaultTE).uuid = uuids k := by
    intro k hk
    rw [forkChain_getD uuids sid es none 0 k hk, reissue_uuid]
    congr 1
    omega
  have hnodup : ((forkChain uuids sid none 0 es).map TreeEntry.uuid).Nodup := by
    rw [forkChain_map_uuid]
    refine List.Nodup.map_on ?_ (List.nodup_range es.length)
    intro a ha b hb hab
    have := hinj a (by simpa using ha) b (by simpa using hb)
    apply this
    simpa using hab
  have hlook : ∀ k, k < es.length →
      lookupUuid (TreeIndex.build ((forkChain uuids sid none 0 es).map
        SessionEntry.ofTree)).by_uuid (uuids k) =
        some [(forkChain uuids sid none 0 es).getD k defaultTE] := by
    intro k hk
    rw [built_lookup]
    have hocc : treeOccs ((forkChain uuids sid none 0 es).map SessionEntry.ofTree)
        (uuids k) = [(forkChain uuids sid none 0 es).getD k defaultTE] := by
      rw [treeOccs, filterMap_ofTree]
      have hfl := filter_uuid_nodup (forkChain uuids sid none 0 es) hnodup k
        (by rw [hlen]; exact hk)
      rw [huuid_k k hk] at hfl
      exact hfl
    rw [hocc]
    rfl
  intro j
  induction j with
  | zero =>
    intro hj seen hseen
    rw [walkLoop_step _ seen (uuids 0) (hnz 0 (by simpa using hj))
      (hseen 0 (Nat.le_refl 0)) _ (hlook 0 hj)
      ((forkChain uuids sid none 0 es).getD 0 defaultTE) rfl]
    have h0 : (forkChain uuids sid none 0 es).getD 0 defaultTE =
        reissue (uuids 0) none sid (es.getD 0 defaultTE) := by
      rw [forkChain_getD uuids sid es none 0 0 hj]
      simp
    rw [h0, walkLoop_reissue_root, ← h0]
    rfl
  | succ j2 ih =>
    intro hj seen hseen
    have hj2 : j2 < es.length := Nat.lt_of_succ_lt hj
    rw [walkLoop_step _ seen (uuids (j2 + 1)) (hnz (j2 + 1) (by simpa using hj))
      (hseen (j2 + 1) (Nat.le_refl _)) _ (hlook (j2 + 1) hj)
      ((forkChain uuids sid none 0 es).getD (j2 + 1) defaultTE) rfl]
    have hpar : ((forkChain uuids sid none 0 es).getD (j2 + 1)
        defaultTE).parentUuid = some (uuids j2) := by
      rw [forkChain_getD uuids sid es none 0 (j2 + 1) hj]
      simp only [Nat.succ_ne_zero, if_false]
      have harith : 0 + (j2 + 1) - 1 = j2 := by omega
      rw [harith, reissue_parent_some]
    rw [hpar]
    have hseen2 : ∀ i, i ≤ j2 → uuids i ∉ uuids (j2 + 1) :: seen := by
      intro i hi hmem
      rcases List.mem_cons.1 hmem with heq | hmem2
      · have := hinj i (by simp; omega) (j2 + 1) (by simpa using hj) heq
        omega
      · exact hseen i (Nat.le_trans hi (Nat.le_succ _)) hmem2
    rw [ih hj2 (uuids (j2 + 1) :: seen) hseen2]
    conv_rhs => rw [List.range_succ, List.reverse_append]
    simp

/-- C6 (modelled from the spec, since fork_session lives in reduck.models
which is not under src/): forking at a target inside the tree produces a new
session whose tree entries are exactly the ancestry chain root..target
re-issued under the fresh identifiers and the new session id — nothing past
the target is copied — and the walked path from the new session's tip equals
the original's path target..root in content, under the fresh identifiers. -/
theorem claim_C6 (uuids : Nat → String) (newSid : String) (c : Conversation)
    (target : String)
    (hne : c.walk_path target ≠ [])
    (hinj : ∀ i ∈ List.range (c.walk_path target).length,
      ∀ j ∈ List.range (c.walk_path target).length, uuids i = uuids j → i = j)
    (hnz : ∀ i ∈ List.range (c.walk_path target).length, uuids i ≠ "") :
    (fork_session uuids newSid c target).records.length =
      (c.walk_path target).length ∧
    ((fork_session uuids newSid c target).records.filterMap treeEntryOf).map
        TreeEntry.content =
      ((c.walk_path target).reverse).map TreeEntry.content ∧
    ((fork_session uuids newSid c target).records.filterMap treeEntryOf).map
        TreeEntry.uuid =
      (List.range (c.walk_path target).length).map uuids ∧
    (∀ e ∈ (fork_session uuids newSid c target).records.filterMap treeEntryOf,
      e.sessionId = some newSid) ∧
    ((fork_session uuids newSid c target).walk_path
        (uuids ((c.walk_path target).length - 1))).map TreeEntry.content =
      (c.walk_path target).map TreeEntry.content ∧
    ((fork_session uuids newSid c target).walk_path
        (uuids ((c.walk_path target).length - 1))).map TreeEntry.uuid =
      ((List.range (c.walk_path target).length).reverse).map uuids := by
  have hlenrev : ((c.walk_path target).reverse).length =
      (c.walk_path target).length := List.length_reverse _
  have hinj2 : ∀ i ∈ List.range ((c.walk_path target).reverse).length,
      ∀ j ∈ List.range ((c.walk_path target).reverse).length,
      uuids i = uuids j → i = j := by rw [hlenrev]; exact hinj
  have hnz2 : ∀ i ∈ List.range ((c.walk_path target).reverse).length,
      uuids i ≠ "" := by rw [hlenrev]; exact hnz
  have hpos : 0 < ((c.walk_path target).reverse).length := by
    rw [hlenrev]
    exact List.length_pos.2 hne
  have hrecords : (fork_session uuids newSid c target).records =
      (forkChain uuids newSid none 0 ((c.walk_path target).reverse)).map
        SessionEntry.ofTree := rfl
  have hwalk := forkChain_walk uuids newSid ((c.walk_path target).reverse)
    hnz2 hinj2 (((c.walk_path target).reverse).length - 1) (by omega) []
    (by intro i _ hmem; cases hmem)
  have harith : ((c.walk_path target).reverse).length - 1 + 1 =
      ((c.walk_path target).reverse).length := by omega
  rw [harith] at hwalk
  have hq : (fork_session uuids newSid c target).walk_path
      (uuids ((c.walk_path target).length - 1)) =
      ((List.range ((c.walk_path target).reverse).length).reverse).map
        (fun k => (forkChain uuids newSid none 0
          ((c.walk_path target).reverse)).getD k defaultTE) := by
    have htip : (c.walk_path target).length - 1 =
        ((c.walk_path target).reverse).length - 1 := by rw [hlenrev]
    rw [Conversation.walk_path, htip]
    exact hwalk
  have hgetD : ∀ k ∈ (List.range ((c.walk_path target).reverse).length).reverse,
      (forkChain uuids newSid none 0 ((c.walk_path target).reverse)).getD k
          defaultTE =
        reissue (uuids k)
          (if k = 0 then none else some (uuids (k - 1))) newSid
          (((c.walk_path target).reverse).getD k defaultTE) := by
    intro k hk
    have hk2 : k < ((c.walk_path target).reverse).length := by
      have := List.mem_reverse.1 hk
      simpa using this
    rw [forkChain_getD uuids newSid ((c.walk_path target).reverse) none 0 k hk2]
    have h0k : 0 + k = k := by omega
    rw [h0k]
  refine ⟨?_, ?_, ?_, ?_, ?_, ?_⟩
  · rw [hrecords, List.length_map, forkChain_length, hlenrev]
  · rw [hrecords, filterMap_ofTree, forkChain_map_content]
  · rw [hrecords, filterMap_ofTree, forkChain_map_uuid, hlenrev]
    apply List.map_congr_left
    intro k _
    show uuids (0 + k) = uuids k
    congr 1
    omega
  · rw [hrecords, filterMap_ofTree]
    exact forkChain_sessionId uuids newSid ((c.walk_path target).reverse) none 0
  · rw [hq, List.map_map]
    have hcong : ∀ k ∈ (List.range ((c.walk_path target).reverse).length).reverse,
        (TreeEntry.content ∘ fun k => (forkChain uuids newSid none 0
          ((c.walk_path target).reverse)).getD k defaultTE) k =
        (fun k => (((c.walk_path target).reverse).getD k defaultTE).content) k := by
      intro k hk
      show ((forkChain uuids newSid none 0
        ((c.walk_path target).reverse)).getD k defaultTE).content = _
      rw [hgetD k hk, reissue_content]
    rw [List.map_congr_left hcong]
    conv_rhs => rw [show c.walk_path target =
      ((c.walk_path target).reverse).reverse from (List.reverse_reverse _).symm]
    rw [List.map_reverse, List.map_reverse,
      map_getD_range TreeEntry.content ((c.walk_path target).reverse)]
  · rw [hq, List.map_map]
    have hcong : ∀ k ∈ (List.range ((c.walk_path target).reverse).length).reverse,
        (TreeEntry.uuid ∘ fun k => (forkChain uuids newSid none 0
          ((c.walk_path target).reverse)).getD k defaultTE) k =
        (fun k => uuids k) k := by
      intro k hk
      show ((forkChain uuids newSid none 0
        ((c.walk_path target).reverse)).getD k defaultTE).uuid = uuids k
      rw [hgetD k hk, reissue_uuid]
    rw [List.map_congr_left hcong, hlenrev]

/-- Concrete evaluation of the walk on the two-node chain log. -/
theorem chainRecords_walk :
    Conversation.walk_path ⟨chainRecords⟩ "b" = [chainTipTE, chainRootTE] := by
  rw [Conversation.walk_path]
  rw [walkLoop_step _ [] "b" (by decide) (by simp) [chainTipTE] (by decide)
    chainTipTE (by decide)]
  have hp1 : chainTipTE.parentUuid = some "a" := by decide
  rw [hp1]
  rw [walkLoop_step _ ["b"] "a" (by decide) (by decide) [chainRootTE] (by decide)
    chainRootTE (by decide)]
  have hp2 : chainRootTE.parentUuid = none := by decide
  rw [hp2, walkLoop_none]

/-- C6 witness: forking the two-node chain at its tip re-issues both
ancestors, content preserved, and the new session's walk matches the original
path contentwise. -/
theorem claim_C6_witness :
    ((fork_session freshUuids "new" ⟨chainRecords⟩ "b").records.filterMap
        treeEntryOf).map TreeEntry.content =
      ((Conversation.walk_path ⟨chainRecords⟩ "b").reverse).map
        TreeEntry.content ∧
    ((fork_session freshUuids "new" ⟨chainRecords⟩ "b").walk_path
        (freshUuids ((Conversation.walk_path ⟨chainRecords⟩ "b").length - 1))).map
        TreeEntry.content =
      (Conversation.walk_path ⟨chainRecords⟩ "b").map TreeEntry.content := by
  have hp : Conversation.walk_path ⟨chainRecords⟩ "b" =
      [chainTipTE, chainRootTE] := chainRecords_walk
  have h := claim_C6 freshUuids "new" ⟨chainRecords⟩ "b" (by rw [hp]; simp)
    (by rw [hp]; decide) (by rw [hp]; decide)
  exact ⟨h.2.1, h.2.2.2.2.1⟩

end DuckTalks
